import Mathlib

/-!
Verification of the skyline library (`src/skyline.rs`).

The Rust source computes with `f64`.  The claims under scrutiny concern the
algorithmic structure of the code (ordering of pieces, sweep progress,
normalisation of the special values `NaN` and `±∞`), not rounding, so the
embedding models `f64` as the exact extended rationals together with a `NaN`
element: constructor `fin q` is a finite value, `pinf`/`ninf` are the two
infinities and `nan` is `NaN`.  The arithmetic and comparison operations
below follow the IEEE-754 rules used by the Rust code on these values
(`NaN` is absorbing for arithmetic and incomparable; `∞ - ∞`, `0·∞`, `0/0`
and `∞/∞` give `NaN`; division of a nonzero finite value by zero gives a
signed infinity; `f64::max`/`f64::min` ignore a `NaN` argument).  Rounding
of finite results is the one simplification (exact rational arithmetic
instead of binary64 rounding); signed zero is identified with zero.
-/

inductive F where
  | nan : F
  | ninf : F
  | pinf : F
  | fin : ℚ → F
deriving DecidableEq

/-- IEEE `<=` : false whenever an operand is NaN. -/
def fle : F → F → Bool
  | F.nan, _ => false
  | _, F.nan => false
  | F.ninf, _ => true
  | _, F.pinf => true
  | F.pinf, _ => false
  | _, F.ninf => false
  | F.fin p, F.fin q => decide (p ≤ q)

/-- IEEE `<` : false whenever an operand is NaN. -/
def flt : F → F → Bool
  | F.nan, _ => false
  | _, F.nan => false
  | F.ninf, F.ninf => false
  | F.ninf, _ => true
  | F.pinf, _ => false
  | _, F.pinf => true
  | _, F.ninf => false
  | F.fin p, F.fin q => decide (p < q)

/-- IEEE `==` : false whenever an operand is NaN. -/
def feq : F → F → Bool
  | F.nan, _ => false
  | _, F.nan => false
  | F.ninf, F.ninf => true
  | F.pinf, F.pinf => true
  | F.fin p, F.fin q => decide (p = q)
  | _, _ => false

def fisNaN : F → Bool
  | F.nan => true
  | _ => false

def fisInfinite : F → Bool
  | F.ninf => true
  | F.pinf => true
  | _ => false

def fneg : F → F
  | F.nan => F.nan
  | F.ninf => F.pinf
  | F.pinf => F.ninf
  | F.fin q => F.fin (-q)

def fadd : F → F → F
  | F.nan, _ => F.nan
  | _, F.nan => F.nan
  | F.ninf, F.pinf => F.nan
  | F.pinf, F.ninf => F.nan
  | F.ninf, _ => F.ninf
  | F.pinf, _ => F.pinf
  | F.fin _, F.ninf => F.ninf
  | F.fin _, F.pinf => F.pinf
  | F.fin p, F.fin q => F.fin (p + q)

def fsub (a b : F) : F := fadd a (fneg b)

def fmul : F → F → F
  | F.nan, _ => F.nan
  | _, F.nan => F.nan
  | F.ninf, F.ninf => F.pinf
  | F.ninf, F.pinf => F.ninf
  | F.pinf, F.ninf => F.ninf
  | F.pinf, F.pinf => F.pinf
  | F.ninf, F.fin q => if q = 0 then F.nan else if 0 < q then F.ninf else F.pinf
  | F.pinf, F.fin q => if q = 0 then F.nan else if 0 < q then F.pinf else F.ninf
  | F.fin q, F.ninf => if q = 0 then F.nan else if 0 < q then F.ninf else F.pinf
  | F.fin q, F.pinf => if q = 0 then F.nan else if 0 < q then F.pinf else F.ninf
  | F.fin p, F.fin q => F.fin (p * q)

def fdiv : F → F → F
  | F.nan, _ => F.nan
  | _, F.nan => F.nan
  | F.ninf, F.ninf => F.nan
  | F.ninf, F.pinf => F.nan
  | F.pinf, F.ninf => F.nan
  | F.pinf, F.pinf => F.nan
  | F.ninf, F.fin q => if 0 ≤ q then F.ninf else F.pinf
  | F.pinf, F.fin q => if 0 ≤ q then F.pinf else F.ninf
  | F.fin _, F.ninf => F.fin 0
  | F.fin _, F.pinf => F.fin 0
  | F.fin p, F.fin q =>
      if q = 0 then (if p = 0 then F.nan else if 0 < p then F.pinf else F.ninf)
      else F.fin (p / q)

/-- Rust `f64::max`: ignores a NaN argument. -/
def fmax (a b : F) : F :=
  if fisNaN a then b else if fisNaN b then a else if flt a b then b else a

/-- Rust `f64::min`: ignores a NaN argument. -/
def fmin (a b : F) : F :=
  if fisNaN a then b else if fisNaN b then a else if flt b a then b else a

/-- One linear piece `y = m·x + b`, valid up to the right boundary `end`. -/
structure Building where
  m : F
  b : F
  end_ : F
deriving DecidableEq

/-- `static MAX_SLOPE: f64 = 1e3` -/
def MAX_SLOPE : F := F.fin 1000

def Building.from_points (x1 y1 x2 y2 : F) : Building :=
  if feq x1 x2 then
    { m := F.fin 0, b := fmax y1 y2, end_ := x1 }
  else
    let m_orig := fdiv (fsub y2 y1) (fsub x2 x1)
    let m := fmin (fmax m_orig (fneg MAX_SLOPE)) MAX_SLOPE
    let b := fmax (fsub y1 (fmul m x1)) (fsub y2 (fmul m x2))
    { m := m, b := b, end_ := fmax x1 x2 }

def Building.intersection (self other : Building) : F :=
  let x := fdiv (fsub other.b self.b) (fsub self.m other.m)
  if fisNaN x then F.ninf else x

def Building.conceals_with_intersect (self other : Building) (x intersect : F) : Bool :=
  if feq self.m other.m then
    fle other.b self.b
  else
    (fle intersect x && flt other.m self.m) || (flt x intersect && flt self.m other.m)

def Building.conceals (self other : Building) (x : F) : Bool :=
  self.conceals_with_intersect other x (self.intersection other)

def Building.empty (e : F) : Building :=
  { m := F.fin 0, b := F.ninf, end_ := e }

def Building.chop (self : Building) (new_end : F) : Building :=
  { m := self.m, b := self.b, end_ := new_end }

def Building.y (self : Building) (x : F) : F :=
  if fisInfinite self.b then self.b else fadd (fmul self.m x) self.b

/-- The four direction tags. -/
inductive Direction where
  | Up : Direction
  | Down : Direction
  | Left : Direction
  | Right : Direction
deriving DecidableEq

def Direction.direction_multiplier : Direction → F
  | Direction.Up => F.fin 1
  | Direction.Down => F.fin (-1)
  | Direction.Left => F.fin (-1)
  | Direction.Right => F.fin 1

/-- The `Flip` relation: the unique opposite-direction partner. -/
def Direction.flip : Direction → Direction
  | Direction.Up => Direction.Down
  | Direction.Down => Direction.Up
  | Direction.Left => Direction.Right
  | Direction.Right => Direction.Left

/-- A skyline is its ordered sequence of buildings. -/
abbrev Skyline := List Building

def Skyline.empty : Skyline := [Building.empty F.pinf]

def Skyline.single (d : Direction) (x1 y1 x2 y2 : F) : Skyline :=
  let mult := d.direction_multiplier
  let b := Building.from_points x1 (fmul y1 mult) x2 (fmul y2 mult)
  let s := Building.empty (fmin x1 x2)
  let e := Building.empty F.pinf
  [s, b, e]

def Skyline.bump (d : Direction) (dy : F) (bs : Skyline) : Skyline :=
  let dy2 := fmul dy d.direction_multiplier
  bs.map (fun p => { m := p.m, b := fadd p.b dy2, end_ := p.end_ })

def Skyline.slide (dx : F) (bs : Skyline) : Skyline :=
  bs.map (fun p => { m := p.m, b := p.b, end_ := fadd p.end_ dx })

/-- The `overlap` sweep of `Skyline::overlap`, with the mutable locals
`i`, `j`, `start`, `dist` made explicit.  Each iteration advances `i` or
`j`, so the recursion terminates on `(len1 - i) + (len2 - j)`. -/
def Skyline.overlapLoop (bs1 bs2 : List Building) (i j : Nat) (start dist : F) : F :=
  if h : i < bs1.length ∧ j < bs2.length then
    let b1 := bs1.get ⟨i, h.1⟩
    let b2 := bs2.get ⟨j, h.2⟩
    let d1 := fmax dist (fadd (b1.y start) (b2.y start))
    if flt b1.end_ b2.end_ then
      Skyline.overlapLoop bs1 bs2 (i + 1) j b1.end_
        (fmax d1 (fadd (b1.y b1.end_) (b2.y b1.end_)))
    else
      Skyline.overlapLoop bs1 bs2 i (j + 1) b2.end_
        (fmax d1 (fadd (b1.y b2.end_) (b2.y b2.end_)))
  else dist
termination_by (bs1.length - i) + (bs2.length - j)
decreasing_by all_goals omega

def Skyline.overlap (bs1 bs2 : List Building) : F :=
  Skyline.overlapLoop bs1 bs2 0 0 F.ninf F.ninf

/-- `Skyline::first_intersection`; the `&mut uint` out-parameter becomes the
second component of the result. -/
def Skyline.first_intersection (b : Building) (bldgs : List Building)
    (start : F) (idx : Nat) : F × Nat :=
  if h : idx < bldgs.length then
    let other := bldgs.get ⟨idx, h⟩
    let intersect := b.intersection other
    if b.conceals_with_intersect other start intersect then
      if flt start intersect && flt intersect (fmin b.end_ other.end_) then
        (intersect, idx)
      else if flt b.end_ other.end_ then
        (b.end_, idx)
      else
        Skyline.first_intersection b bldgs other.end_ (idx + 1)
    else (start, idx)
  else (F.pinf, idx)
termination_by bldgs.length - idx
decreasing_by omega

/-- One-loop body of `Skyline::internal_merge`, with the mutable locals made
explicit.  The Rust `while` loop carries no structural measure (an iteration
may advance neither cursor when the two current pieces cross strictly inside
both domains), so the recursion is driven by a fuel counter; the proofs below
show that for well-formed inputs the fuel `2*(len1+len2)+2` supplied by
`internal_merge` is never exhausted (the loop always stops because a cursor
leaves its sequence, with both cursors at their sequence lengths). -/
def Skyline.mergeLoop (in1 in2 : List Building) :
    Nat → Nat → Nat → F → List Building → Nat × Nat × List Building
  | 0, i, j, _, out => (i, j, out)
  | fuel + 1, i, j, start, out =>
    if h : i < in1.length ∧ j < in2.length then
      let b1 := in1.get ⟨i, h.1⟩
      let b2 := in2.get ⟨j, h.2⟩
      if b1.conceals b2 start then
        let r := Skyline.first_intersection b1 in2 start j
        let out2 := out ++ [b1.chop r.1]
        let i2 := if fle b1.end_ r.1 then i + 1 else i
        Skyline.mergeLoop in1 in2 fuel i2 r.2 r.1 out2
      else
        let r := Skyline.first_intersection b2 in1 start i
        let out2 := out ++ [b2.chop r.1]
        let j2 := if fle b2.end_ r.1 then j + 1 else j
        Skyline.mergeLoop in1 in2 fuel r.2 j2 r.1 out2
    else (i, j, out)

def Skyline.mergeFuel (in1 in2 : List Building) : Nat :=
  2 * (in1.length + in2.length) + 2

/-- `Skyline::internal_merge` (the output vector). -/
def Skyline.internal_merge (in1 in2 : List Building) : List Building :=
  (Skyline.mergeLoop in1 in2 (Skyline.mergeFuel in1 in2) 0 0 F.ninf []).2.2

/-- `Skyline::merge` replaces the receiver's buildings with the merge. -/
def Skyline.merge (self other : Skyline) : Skyline :=
  Skyline.internal_merge self other

/-- The piece whose domain contains `x`: pieces are laid left to right, the
piece at index `k` covering `(end_{k-1}, end_k]` (the first piece covering
`(-∞, end_0]`, the last also anything beyond its predecessor). -/
def pieceAt : List Building → F → Building
  | [], _ => Building.empty F.pinf
  | [p], _ => p
  | p :: q :: rest, x => if fle x p.end_ then p else pieceAt (q :: rest) x

/-- A skyline's value at `x`. -/
def evalSky (bs : List Building) (x : F) : F := (pieceAt bs x).y x

def wfEnd : F → Bool
  | F.fin _ => true
  | F.pinf => true
  | _ => false

def wfIntercept : F → Bool
  | F.fin _ => true
  | F.ninf => true
  | _ => false

def fIsFin : F → Bool
  | F.fin _ => true
  | _ => false

/-- Well-formed building per the spec's data model: a finite slope, an
intercept that is finite or `-∞`, and an end that is finite or `+∞`. -/
def wfB (p : Building) : Bool :=
  fIsFin p.m && wfIntercept p.b && wfEnd p.end_

def strictEnds : List Building → Bool
  | [] => true
  | [_] => true
  | p :: q :: rest => flt p.end_ q.end_ && strictEnds (q :: rest)

def lastEndInf : List Building → Bool
  | [] => false
  | [p] => decide (p.end_ = F.pinf)
  | _ :: q :: rest => lastEndInf (q :: rest)

/-- Well-formed skyline: a nonempty sequence of well-formed buildings with
strictly increasing ends, terminated by a piece whose end is `+∞`. -/
def wfSky (bs : List Building) : Bool :=
  !bs.isEmpty && bs.all wfB && strictEnds bs && lastEndInf bs

/-! ### Order lemmas for `F` -/

theorem fle_ne_nan_left {a b : F} (h : fle a b = true) : a ≠ F.nan := by
  cases a <;> cases b <;> simp_all [fle]

theorem fle_ne_nan_right {a b : F} (h : fle a b = true) : b ≠ F.nan := by
  cases a <;> cases b <;> simp_all [fle]

theorem flt_ne_nan_left {a b : F} (h : flt a b = true) : a ≠ F.nan := by
  cases a <;> cases b <;> simp_all [flt]

theorem flt_ne_nan_right {a b : F} (h : flt a b = true) : b ≠ F.nan := by
  cases a <;> cases b <;> simp_all [flt]

theorem fle_refl {a : F} (h : a ≠ F.nan) : fle a a = true := by
  cases a <;> simp_all [fle]

theorem flt_irrefl (a : F) : flt a a = false := by
  cases a <;> simp [flt]

theorem fle_of_flt {a b : F} (h : flt a b = true) : fle a b = true := by
  cases a <;> cases b <;> simp_all [fle, flt] <;> linarith

theorem fle_total {a b : F} (ha : a ≠ F.nan) (hb : b ≠ F.nan) :
    fle a b = true ∨ fle b a = true := by
  cases a <;> cases b <;> simp_all [fle] <;> exact le_total _ _

theorem flt_or_fle {a b : F} (ha : a ≠ F.nan) (hb : b ≠ F.nan) :
    flt a b = true ∨ fle b a = true := by
  cases a <;> cases b <;> simp_all [fle, flt] <;> exact lt_or_le _ _

theorem fle_antisymm {a b : F} (h1 : fle a b = true) (h2 : fle b a = true) : a = b := by
  cases a <;> cases b <;> simp_all [fle] <;> linarith

theorem fle_trans {a b c : F} (h1 : fle a b = true) (h2 : fle b c = true) :
    fle a c = true := by
  cases a <;> cases b <;> cases c <;> simp_all [fle] <;> linarith

theorem flt_trans {a b c : F} (h1 : flt a b = true) (h2 : flt b c = true) :
    flt a c = true := by
  cases a <;> cases b <;> cases c <;> simp_all [flt] <;> linarith

theorem flt_of_flt_of_fle {a b c : F} (h1 : flt a b = true) (h2 : fle b c = true) :
    flt a c = true := by
  cases a <;> cases b <;> cases c <;> simp_all [fle, flt] <;> linarith

theorem flt_of_fle_of_flt {a b c : F} (h1 : fle a b = true) (h2 : flt b c = true) :
    flt a c = true := by
  cases a <;> cases b <;> cases c <;> simp_all [fle, flt] <;> linarith

theorem flt_asymm {a b : F} (h : flt a b = true) : flt b a = false := by
  cases a <;> cases b <;> simp_all [flt] <;> linarith

theorem fle_false_iff_flt {a b : F} (ha : a ≠ F.nan) (hb : b ≠ F.nan) :
    fle a b = false ↔ flt b a = true := by
  cases a <;> cases b <;> simp_all [fle, flt]

theorem flt_false_iff_fle {a b : F} (ha : a ≠ F.nan) (hb : b ≠ F.nan) :
    flt a b = false ↔ fle b a = true := by
  cases a <;> cases b <;> simp_all [fle, flt]

theorem fle_ninf {a : F} (h : a ≠ F.nan) : fle F.ninf a = true := by
  cases a <;> simp_all [fle]

theorem fle_pinf {a : F} (h : a ≠ F.nan) : fle a F.pinf = true := by
  cases a <;> simp_all [fle]

theorem flt_pinf_false (a : F) : flt F.pinf a = false := by
  cases a <;> simp [flt]

theorem flt_any_ninf_false (a : F) : flt a F.ninf = false := by
  cases a <;> simp [flt]

theorem flt_pinf_of_ne {a : F} (h : a ≠ F.nan) (h2 : a ≠ F.pinf) :
    flt a F.pinf = true := by
  cases a <;> simp_all [flt]

theorem feq_refl {a : F} (h : a ≠ F.nan) : feq a a = true := by
  cases a <;> simp_all [feq]

theorem feq_symm {a b : F} : feq a b = feq b a := by
  cases a <;> cases b <;> simp [feq] <;> exact eq_comm

theorem feq_true_iff {a b : F} (ha : a ≠ F.nan) : feq a b = true ↔ a = b := by
  cases a <;> cases b <;> simp_all [feq]

theorem feq_false_of_flt {a b : F} (h : flt a b = true) : feq a b = false := by
  cases a <;> cases b <;> simp_all [feq, flt] <;> linarith

/-! ### `fmax` / `fmin` lemmas -/

theorem fmax_eq_left {a b : F} (h : fle b a = true) : fmax a b = a := by
  have ha := fle_ne_nan_right h
  have hb := fle_ne_nan_left h
  unfold fmax
  have h1 : fisNaN a = false := by cases a <;> simp_all [fisNaN]
  have h2 : fisNaN b = false := by cases b <;> simp_all [fisNaN]
  have h3 : flt a b = false := by
    rw [flt_false_iff_fle ha hb]; exact h
  simp [h1, h2, h3]

theorem fmax_eq_right {a b : F} (h : fle a b = true) : fmax a b = b := by
  have ha := fle_ne_nan_left h
  have hb := fle_ne_nan_right h
  unfold fmax
  have h1 : fisNaN a = false := by cases a <;> simp_all [fisNaN]
  have h2 : fisNaN b = false := by cases b <;> simp_all [fisNaN]
  by_cases h3 : flt a b = true
  · simp [h1, h2, h3]
  · have h4 : flt a b = false := by simp_all
    have h5 : fle b a = true := (flt_false_iff_fle ha hb).1 h4
    simp [h1, h2, h4, fle_antisymm h h5]

theorem fmax_nan_right {a : F} (h : a ≠ F.nan) : fmax a F.nan = a := by
  unfold fmax
  have h1 : fisNaN a = false := by cases a <;> simp_all [fisNaN]
  simp [h1, fisNaN]

theorem fmax_ne_nan {a b : F} (h : a ≠ F.nan) : fmax a b ≠ F.nan := by
  unfold fmax
  have h1 : fisNaN a = false := by cases a <;> simp_all [fisNaN]
  by_cases h2 : fisNaN b = true
  · simp [h1, h2, h]
  · have h2' : fisNaN b = false := by simp_all
    have hb : b ≠ F.nan := by cases b <;> simp_all [fisNaN]
    by_cases h3 : flt a b = true <;> simp_all

theorem fle_fmax_left {a b : F} (ha : a ≠ F.nan) : fle a (fmax a b) = true := by
  unfold fmax
  have h1 : fisNaN a = false := by cases a <;> simp_all [fisNaN]
  by_cases h2 : fisNaN b = true
  · simp [h1, h2, fle_refl ha]
  · have h2' : fisNaN b = false := by simp_all
    by_cases h3 : flt a b = true
    · simp [h1, h2', h3, fle_of_flt h3]
    · simp [h1, h2', h3, fle_refl ha]

theorem fle_fmax_right {a b : F} (ha : a ≠ F.nan) (hb : b ≠ F.nan) :
    fle b (fmax a b) = true := by
  unfold fmax
  have h1 : fisNaN a = false := by cases a <;> simp_all [fisNaN]
  have h2 : fisNaN b = false := by cases b <;> simp_all [fisNaN]
  by_cases h3 : flt a b = true
  · simp [h1, h2, h3, fle_refl hb]
  · have h4 : flt a b = false := by simp_all
    simp [h1, h2, h4, (flt_false_iff_fle ha hb).1 h4]

theorem fmax_le {a b c : F} (h1 : fle a c = true) (h2 : fle b c = true) :
    fle (fmax a b) c = true := by
  unfold fmax
  have ha := fle_ne_nan_left h1
  have hb := fle_ne_nan_left h2
  have ha' : fisNaN a = false := by cases a <;> simp_all [fisNaN]
  have hb' : fisNaN b = false := by cases b <;> simp_all [fisNaN]
  by_cases h3 : flt a b = true <;> simp_all

/-- Covers the NaN-ignoring update `dist = dist.max(sample)`. -/
theorem fmax_le_of_le_of_imp {d s u : F} (h1 : fle d u = true)
    (h2 : s ≠ F.nan → fle s u = true) : fle (fmax d s) u = true := by
  by_cases hs : s = F.nan
  · rw [hs, fmax_nan_right (fle_ne_nan_left h1)]; exact h1
  · exact fmax_le h1 (h2 hs)

theorem fmin_eq_left {a b : F} (h : fle a b = true) : fmin a b = a := by
  have ha := fle_ne_nan_left h
  have hb := fle_ne_nan_right h
  unfold fmin
  have h1 : fisNaN a = false := by cases a <;> simp_all [fisNaN]
  have h2 : fisNaN b = false := by cases b <;> simp_all [fisNaN]
  have h3 : flt b a = false := by
    rw [flt_false_iff_fle hb ha]; exact h
  simp [h1, h2, h3]

theorem fmin_eq_right {a b : F} (h : fle b a = true) : fmin a b = b := by
  have hb := fle_ne_nan_left h
  have ha := fle_ne_nan_right h
  unfold fmin
  have h1 : fisNaN a = false := by cases a <;> simp_all [fisNaN]
  have h2 : fisNaN b = false := by cases b <;> simp_all [fisNaN]
  by_cases h3 : flt b a = true
  · simp [h1, h2, h3]
  · have h4 : flt b a = false := by simp_all
    have h5 : fle a b = true := (flt_false_iff_fle hb ha).1 h4
    simp [h1, h2, h4, fle_antisymm h h5]

theorem fle_fmin {a b c : F} (h1 : fle c a = true) (h2 : fle c b = true) :
    fle c (fmin a b) = true := by
  rcases fle_total (fle_ne_nan_right h1) (fle_ne_nan_right h2) with h | h
  · rw [fmin_eq_left h]; exact h1
  · rw [fmin_eq_right h]; exact h2

theorem fmin_le_left {a b : F} (ha : a ≠ F.nan) (hb : b ≠ F.nan) :
    fle (fmin a b) a = true := by
  rcases fle_total ha hb with h | h
  · rw [fmin_eq_left h]; exact fle_refl ha
  · rw [fmin_eq_right h]; exact h

theorem fmin_le_right {a b : F} (ha : a ≠ F.nan) (hb : b ≠ F.nan) :
    fle (fmin a b) b = true := by
  rcases fle_total ha hb with h | h
  · rw [fmin_eq_left h]; exact h
  · rw [fmin_eq_right h]; exact fle_refl hb

/-! ### Arithmetic lemmas -/

theorem fneg_fsub (a b : F) : fneg (fsub a b) = fsub b a := by
  cases a <;> cases b <;> simp [fsub, fadd, fneg] <;> ring

theorem fdiv_fneg_fneg (a b : F) (hb : b ≠ F.fin 0) :
    fdiv (fneg a) (fneg b) = fdiv a b := by
  cases a with
  | nan => cases b <;> simp [fdiv, fneg]
  | ninf =>
      cases b with
      | fin q =>
          have hq : q ≠ 0 := by intro h; exact hb (by rw [h])
          simp only [fneg, fdiv]
          rcases lt_trichotomy q 0 with h | h | h
          · rw [if_pos (by linarith), if_neg (by linarith)]
          · exact absurd h hq
          · rw [if_neg (by linarith), if_pos (by linarith)]
      | _ => simp [fdiv, fneg]
  | pinf =>
      cases b with
      | fin q =>
          have hq : q ≠ 0 := by intro h; exact hb (by rw [h])
          simp only [fneg, fdiv]
          rcases lt_trichotomy q 0 with h | h | h
          · rw [if_pos (by linarith), if_neg (by linarith)]
          · exact absurd h hq
          · rw [if_neg (by linarith), if_pos (by linarith)]
      | _ => simp [fdiv, fneg]
  | fin p =>
      cases b with
      | fin q =>
          have hq : q ≠ 0 := by intro h; exact hb (by rw [h])
          simp only [fneg, fdiv]
          rw [if_neg (by simpa using hq), if_neg hq]
          congr 1
          field_simp
      | _ => simp [fdiv, fneg]

theorem fsub_ne_fin_zero {a b : F} (ha : a ≠ F.nan) (hb : b ≠ F.nan)
    (h : feq a b = false) : fsub a b ≠ F.fin 0 := by
  cases a <;> cases b <;> simp_all [fsub, fadd, fneg, feq]
  intro hc
  exact h (by linarith)

theorem intersection_ne_nan (b1 b2 : Building) :
    Building.intersection b1 b2 ≠ F.nan := by
  unfold Building.intersection
  by_cases h : fisNaN (fdiv (fsub b2.b b1.b) (fsub b1.m b2.m)) = true
  · simp [h]
  · have h' : fisNaN (fdiv (fsub b2.b b1.b) (fsub b1.m b2.m)) = false := by simp_all
    simp only [h', if_false, Bool.false_eq_true]
    generalize fdiv (fsub b2.b b1.b) (fsub b1.m b2.m) = z at h'
    cases z <;> simp_all [fisNaN]

/-- When the slopes differ (as `f64` values), the intersection of two
buildings is symmetric: negating numerator and denominator of the defining
quotient leaves it unchanged because the denominator is not zero. -/
theorem intersection_symm {b1 b2 : Building} (hm1 : b1.m ≠ F.nan)
    (hm2 : b2.m ≠ F.nan) (h : feq b1.m b2.m = false) :
    Building.intersection b2 b1 = Building.intersection b1 b2 := by
  unfold Building.intersection
  have e1 : fsub b1.b b2.b = fneg (fsub b2.b b1.b) := (fneg_fsub _ _).symm
  have e2 : fsub b2.m b1.m = fneg (fsub b1.m b2.m) := (fneg_fsub _ _).symm
  rw [e1, e2, fdiv_fneg_fneg _ _ (fsub_ne_fin_zero hm1 hm2 h)]

/-- C4 counterexample: for two buildings with equal slopes and unequal
intercepts the division in `intersection` produces `+∞`, which is returned
unchanged — not normalized to `−∞` as the claim states (only `NaN` is
normalized). -/
theorem c4_cex_inf_propagated :
    Building.intersection ⟨F.fin 0, F.fin 0, F.pinf⟩ ⟨F.fin 0, F.fin 1, F.pinf⟩
      = F.pinf ∧ F.pinf ≠ F.ninf := by
  constructor
  · norm_num [Building.intersection, fsub, fadd, fneg, fdiv, fisNaN]
  · intro h; cases h

/-- C4 (amended): `intersection` returns
`(other.intercept − self.intercept) / (self.slope − other.slope)`, and a
`NaN` quotient — as arises when the slopes are equal and the intercepts are
equal or both infinite alike — is normalized to `−∞`, so the result is never
`NaN`; an infinite quotient (equal slopes with distinct finite intercepts)
is propagated unchanged as `±∞`. -/
theorem c4_intersection_normalizes_nan (b1 b2 : Building) :
    Building.intersection b1 b2 ≠ F.nan ∧
    (fisNaN (fdiv (fsub b2.b b1.b) (fsub b1.m b2.m)) = true →
      Building.intersection b1 b2 = F.ninf) ∧
    (fisNaN (fdiv (fsub b2.b b1.b) (fsub b1.m b2.m)) = false →
      Building.intersection b1 b2 = fdiv (fsub b2.b b1.b) (fsub b1.m b2.m)) ∧
    (feq b1.m b2.m = true → fIsFin b1.b = true → fIsFin b2.b = true →
      feq b1.b b2.b = false → fisInfinite (Building.intersection b1 b2) = true) := by
  refine ⟨intersection_ne_nan b1 b2, ?_, ?_, ?_⟩
  · intro h; unfold Building.intersection; simp [h]
  · intro h; unfold Building.intersection; simp [h]
  · intro hm hb1 hb2 hne
    obtain ⟨p1, e1⟩ : ∃ q, b1.b = F.fin q := by
      cases h : b1.b <;> simp_all [fIsFin]
    obtain ⟨p2, e2⟩ : ∃ q, b2.b = F.fin q := by
      cases h : b2.b <;> simp_all [fIsFin]
    have hpq : p2 ≠ p1 := by
      rw [e1, e2] at hne; simp [feq] at hne
      exact fun hc => hne hc.symm
    unfold Building.intersection
    rw [e1, e2]
    cases hm1 : b1.m with
    | nan => rw [hm1] at hm; cases b2.m <;> simp [feq] at hm
    | ninf =>
        have hm2 : b2.m = F.ninf := by
          rw [hm1] at hm; cases h : b2.m <;> rw [h] at hm <;> simp_all [feq]
        rw [hm2]
        simp [fsub, fadd, fneg, fdiv, fisNaN, fisInfinite]
    | pinf =>
        have hm2 : b2.m = F.pinf := by
          rw [hm1] at hm; cases h : b2.m <;> rw [h] at hm <;> simp_all [feq]
        rw [hm2]
        simp [fsub, fadd, fneg, fdiv, fisNaN, fisInfinite]
    | fin q1 =>
        obtain ⟨q2, hm2⟩ : ∃ q, b2.m = F.fin q := by
          rw [hm1] at hm; cases h : b2.m <;> rw [h] at hm <;> simp_all [feq]
        have hq : q1 = q2 := by
          rw [hm1, hm2] at hm; simpa [feq] using hm
        rw [hm2, ← hq]
        have hzero : q1 + -q1 = 0 := by ring
        have hd : p2 + -p1 ≠ 0 := fun hc => hpq (by linarith)
        simp only [fsub, fadd, fneg, fdiv, hzero]
        rcases lt_trichotomy (p2 + -p1) 0 with h | h | h
        · simp [hd, fisNaN, fisInfinite, show ¬(0 < p2 + -p1) by linarith]
        · exact absurd h hd
        · simp [hd, fisNaN, fisInfinite, h]

/-- C4 witness: the amended theorem applied to concrete buildings with equal
slope 0, intercepts 0 and 0 (NaN quotient normalized to −∞). -/
theorem c4_witness :
    Building.intersection ⟨F.fin 0, F.fin 0, F.pinf⟩ ⟨F.fin 0, F.fin 0, F.pinf⟩
      ≠ F.nan ∧
    Building.intersection ⟨F.fin 0, F.fin 0, F.pinf⟩ ⟨F.fin 0, F.fin 0, F.pinf⟩
      = F.ninf := by
  refine ⟨(c4_intersection_normalizes_nan _ _).1, ?_⟩
  exact (c4_intersection_normalizes_nan
    ⟨F.fin 0, F.fin 0, F.pinf⟩ ⟨F.fin 0, F.fin 0, F.pinf⟩).2.1
    (by norm_num [fsub, fadd, fneg, fdiv, fisNaN])

/-- C8: evaluating a building whose intercept is `−∞` returns `−∞` for every
`x`, including `x = ±∞`, and never `NaN`. -/
theorem c8_empty_piece_eval (p : Building) (x : F) (h : p.b = F.ninf) :
    Building.y p x = F.ninf ∧ Building.y p x ≠ F.nan := by
  unfold Building.y
  rw [h]
  simp [fisInfinite]

/-- C8 witness: the flat empty piece evaluated at `+∞`. -/
theorem c8_witness :
    Building.y (Building.empty (F.fin 0)) F.pinf = F.ninf ∧
    Building.y (Building.empty (F.fin 0)) F.pinf ≠ F.nan :=
  c8_empty_piece_eval (Building.empty (F.fin 0)) F.pinf rfl

/-- For buildings with no `NaN` field and a non-`NaN` `x`, at least one of
the two `conceals` tests succeeds. -/
theorem conceals_total (b1 b2 : Building) (x : F)
    (hm1 : b1.m ≠ F.nan) (hb1 : b1.b ≠ F.nan) (he1 : b1.end_ ≠ F.nan)
    (hm2 : b2.m ≠ F.nan) (hb2 : b2.b ≠ F.nan) (he2 : b2.end_ ≠ F.nan)
    (hx : x ≠ F.nan) :
    b1.conceals b2 x = true ∨ b2.conceals b1 x = true := by
  by_cases hm : feq b1.m b2.m = true
  · have hm' : feq b2.m b1.m = true := by rw [feq_symm]; exact hm
    unfold Building.conceals Building.conceals_with_intersect
    rw [if_pos hm, if_pos hm']
    exact (fle_total hb2 hb1).imp id id
  · have hmf : feq b1.m b2.m = false := by simp_all
    have hmf' : feq b2.m b1.m = false := by rw [feq_symm]; exact hmf
    have hsym := intersection_symm hm1 hm2 hmf
    have hixn : Building.intersection b1 b2 ≠ F.nan := intersection_ne_nan b1 b2
    unfold Building.conceals Building.conceals_with_intersect
    rw [if_neg (by simp [hmf]), if_neg (by simp [hmf']), hsym]
    have hlt : flt b1.m b2.m = true ∨ flt b2.m b1.m = true := by
      rcases flt_or_fle hm1 hm2 with h | h
      · exact Or.inl h
      · rcases flt_or_fle hm2 hm1 with h2 | h2
        · exact Or.inr h2
        · exact absurd ((feq_true_iff hm1).2 (fle_antisymm h2 h)) (by simp [hmf])
    rcases hlt with h | h
    · rcases flt_or_fle hx hixn with h2 | h2
      · exact Or.inl (by simp [h, h2])
      · exact Or.inr (by simp [h, h2])
    · rcases flt_or_fle hx hixn with h2 | h2
      · exact Or.inr (by simp [h, h2])
      · exact Or.inl (by simp [h, h2])

/-! ### Computation rules on finite values -/

theorem fadd_fin (p q : ℚ) : fadd (F.fin p) (F.fin q) = F.fin (p + q) := rfl

theorem fsub_fin (p q : ℚ) : fsub (F.fin p) (F.fin q) = F.fin (p - q) := by
  simp only [fsub, fneg, fadd]
  norm_num
  ring

theorem fmul_fin (p q : ℚ) : fmul (F.fin p) (F.fin q) = F.fin (p * q) := rfl

theorem fdiv_fin (p q : ℚ) (h : q ≠ 0) : fdiv (F.fin p) (F.fin q) = F.fin (p / q) := by
  simp [fdiv, h]

theorem fmax_fin (p q : ℚ) : fmax (F.fin p) (F.fin q) = F.fin (max p q) := by
  unfold fmax
  by_cases h : p < q
  · simp [fisNaN, flt, h, max_eq_right (le_of_lt h)]
  · simp [fisNaN, flt, h, max_eq_left (not_lt.1 h)]

theorem fmin_fin (p q : ℚ) : fmin (F.fin p) (F.fin q) = F.fin (min p q) := by
  unfold fmin
  by_cases h : q < p
  · simp [fisNaN, flt, h, min_eq_right (le_of_lt h)]
  · simp [fisNaN, flt, h, min_eq_left (not_lt.1 h)]

theorem fle_fin (p q : ℚ) : fle (F.fin p) (F.fin q) = decide (p ≤ q) := rfl

theorem flt_fin (p q : ℚ) : flt (F.fin p) (F.fin q) = decide (p < q) := rfl

theorem y_fin (mq bq x : ℚ) {p : Building} (hm : p.m = F.fin mq) (hb : p.b = F.fin bq) :
    Building.y p (F.fin x) = F.fin (mq * x + bq) := by
  unfold Building.y
  rw [hm, hb]
  simp [fisInfinite, fmul_fin, fadd_fin]

theorem from_points_vertical (x1 y1 x2 y2 : ℚ) (hx : x1 = x2) :
    Building.from_points (F.fin x1) (F.fin y1) (F.fin x2) (F.fin y2)
      = { m := F.fin 0, b := F.fin (max y1 y2), end_ := F.fin x1 } := by
  unfold Building.from_points
  rw [if_pos (by simp [feq, hx]), fmax_fin]

theorem from_points_slant (x1 y1 x2 y2 : ℚ) (hx : x1 ≠ x2) :
    Building.from_points (F.fin x1) (F.fin y1) (F.fin x2) (F.fin y2)
      = { m := F.fin (min (max ((y2 - y1) / (x2 - x1)) (-1000)) 1000),
          b := F.fin (max (y1 - min (max ((y2 - y1) / (x2 - x1)) (-1000)) 1000 * x1)
                          (y2 - min (max ((y2 - y1) / (x2 - x1)) (-1000)) 1000 * x2)),
          end_ := F.fin (max x1 x2) } := by
  have hd : x2 - x1 ≠ 0 := fun hc => hx (by linarith)
  unfold Building.from_points
  rw [if_neg (by simp [feq, hx])]
  simp only [fsub_fin, fdiv_fin _ _ hd, MAX_SLOPE, fneg, fmax_fin, fmin_fin,
    fmul_fin, fmax_fin]

/-- C5: `from_points` on finite inputs.  A vertical segment degenerates to
slope `0`, intercept `max y1 y2` and end `x1` (no NaN); otherwise the raw
slope is clamped to `[-1000, 1000]`, the intercept is the larger of the two
point-implied intercepts (so the line lies on or above both endpoints), and
the end is `max x1 x2`.  No field is ever NaN. -/
theorem c5_from_points (x1 y1 x2 y2 : ℚ) :
    (x1 = x2 →
      Building.from_points (F.fin x1) (F.fin y1) (F.fin x2) (F.fin y2)
        = { m := F.fin 0, b := F.fin (max y1 y2), end_ := F.fin x1 }) ∧
    (x1 ≠ x2 →
      Building.from_points (F.fin x1) (F.fin y1) (F.fin x2) (F.fin y2)
        = { m := F.fin (min (max ((y2 - y1) / (x2 - x1)) (-1000)) 1000),
            b := F.fin (max (y1 - min (max ((y2 - y1) / (x2 - x1)) (-1000)) 1000 * x1)
                            (y2 - min (max ((y2 - y1) / (x2 - x1)) (-1000)) 1000 * x2)),
            end_ := F.fin (max x1 x2) }) ∧
    fle (F.fin y1)
      ((Building.from_points (F.fin x1) (F.fin y1) (F.fin x2) (F.fin y2)).y (F.fin x1))
      = true ∧
    fle (F.fin y2)
      ((Building.from_points (F.fin x1) (F.fin y1) (F.fin x2) (F.fin y2)).y (F.fin x2))
      = true ∧
    (Building.from_points (F.fin x1) (F.fin y1) (F.fin x2) (F.fin y2)).m ≠ F.nan ∧
    (Building.from_points (F.fin x1) (F.fin y1) (F.fin x2) (F.fin y2)).b ≠ F.nan ∧
    (Building.from_points (F.fin x1) (F.fin y1) (F.fin x2) (F.fin y2)).end_ ≠ F.nan := by
  by_cases hx : x1 = x2
  · have he := from_points_vertical x1 y1 x2 y2 hx
    refine ⟨fun _ => he, fun hc => absurd hx hc, ?_, ?_, ?_, ?_, ?_⟩ <;> rw [he]
    · rw [y_fin 0 (max y1 y2) x1 rfl rfl, fle_fin]
      simp only [decide_eq_true_eq, zero_mul, zero_add]
      exact le_max_left y1 y2
    · rw [y_fin 0 (max y1 y2) x2 rfl rfl, fle_fin]
      simp only [decide_eq_true_eq, zero_mul, zero_add]
      exact le_max_right y1 y2
    all_goals simp
  · have he := from_points_slant x1 y1 x2 y2 hx
    refine ⟨fun hc => absurd hc hx, fun _ => he, ?_, ?_, ?_, ?_, ?_⟩ <;> rw [he]
    · rw [y_fin _ _ x1 rfl rfl, fle_fin]
      simp only [decide_eq_true_eq]
      have := le_max_left
        (y1 - min (max ((y2 - y1) / (x2 - x1)) (-1000)) 1000 * x1)
        (y2 - min (max ((y2 - y1) / (x2 - x1)) (-1000)) 1000 * x2)
      linarith
    · rw [y_fin _ _ x2 rfl rfl, fle_fin]
      simp only [decide_eq_true_eq]
      have := le_max_right
        (y1 - min (max ((y2 - y1) / (x2 - x1)) (-1000)) 1000 * x1)
        (y2 - min (max ((y2 - y1) / (x2 - x1)) (-1000)) 1000 * x2)
      linarith
    all_goals simp

/-- C5 witness: the vertical segment `from_points(3, 0, 3, 5)` from the spec's
test list. -/
theorem c5_witness :
    Building.from_points (F.fin 3) (F.fin 0) (F.fin 3) (F.fin 5)
      = { m := F.fin 0, b := F.fin (max 0 5), end_ := F.fin 3 } :=
  (c5_from_points 3 0 3 5).1 rfl

/-- C10: `bump` adds `dy · direction_multiplier` to every building's
intercept and leaves every slope, every end and the number of buildings
unchanged; the multiplier is `+1` for `Up` and `Right` and `−1` for `Down`
and `Left`. -/
theorem c10_bump (d : Direction) (dy : F) (bs : List Building) :
    (Skyline.bump d dy bs).length = bs.length ∧
    (∀ i : Nat, (Skyline.bump d dy bs)[i]? = (bs[i]?).map
      (fun p => { m := p.m, b := fadd p.b (fmul dy d.direction_multiplier),
                  end_ := p.end_ })) ∧
    Direction.direction_multiplier Direction.Up = F.fin 1 ∧
    Direction.direction_multiplier Direction.Right = F.fin 1 ∧
    Direction.direction_multiplier Direction.Down = F.fin (-1) ∧
    Direction.direction_multiplier Direction.Left = F.fin (-1) := by
  refine ⟨by simp [Skyline.bump], fun i => ?_, rfl, rfl, rfl, rfl⟩
  simp [Skyline.bump]

/-- C3 counterexample: for a vertical segment, `single` produces ends
`[x, x, +∞]` — the middle (zero-width) piece's end equals its predecessor's
end, so the end values are not strictly increasing. -/
theorem c3_cex_vertical_single :
    strictEnds (Skyline.single Direction.Up (F.fin 0) (F.fin 0) (F.fin 0) (F.fin 5))
      = false := by
  norm_num [Skyline.single, Building.from_points, Building.empty, strictEnds,
    Direction.direction_multiplier, feq, fmin_fin, fmax_fin, fmul_fin, flt_fin, flt]

/-- C2 counterexample: two single-piece skylines, well-formed per the spec's
data-model invariant (§3), whose last pieces have slopes `2` and `−1`.  The
pointwise sum is `x`, unbounded above, but the sweep samples at `±∞` both
give `NaN` (opposite infinities), which `f64::max` ignores, so `overlap`
returns `−∞` — strictly below the pointwise sum at `x = 1`. -/
theorem c2_cex_overlap_misses_sup :
    wfSky [⟨F.fin 2, F.fin 0, F.pinf⟩] = true ∧
    wfSky [⟨F.fin (-1), F.fin 0, F.pinf⟩] = true ∧
    Skyline.overlap [⟨F.fin 2, F.fin 0, F.pinf⟩] [⟨F.fin (-1), F.fin 0, F.pinf⟩]
      = F.ninf ∧
    flt (Skyline.overlap [⟨F.fin 2, F.fin 0, F.pinf⟩] [⟨F.fin (-1), F.fin 0, F.pinf⟩])
      (fadd (evalSky [⟨F.fin 2, F.fin 0, F.pinf⟩] (F.fin 1))
            (evalSky [⟨F.fin (-1), F.fin 0, F.pinf⟩] (F.fin 1))) = true := by
  have hov : Skyline.overlap [⟨F.fin 2, F.fin 0, F.pinf⟩] [⟨F.fin (-1), F.fin 0, F.pinf⟩]
      = F.ninf := by
    rw [Skyline.overlap, Skyline.overlapLoop]
    norm_num [Building.y, fisInfinite, fmul, fadd, fmax, flt, fisNaN, fle, List.get]
    rw [Skyline.overlapLoop]
    norm_num
  refine ⟨?_, ?_, hov, ?_⟩
  · norm_num [wfSky, wfB, strictEnds, lastEndInf, fIsFin, wfIntercept, wfEnd, List.all]
  · norm_num [wfSky, wfB, strictEnds, lastEndInf, fIsFin, wfIntercept, wfEnd, List.all]
  · rw [hov]
    norm_num [evalSky, pieceAt, Building.y, fisInfinite, fmul_fin, fadd_fin, fadd, flt]

/-! ### Well-formedness accessors -/

theorem wfB_m {p : Building} (h : wfB p = true) : ∃ q, p.m = F.fin q := by
  unfold wfB at h
  cases hm : p.m <;> simp_all [fIsFin]

theorem wfB_b {p : Building} (h : wfB p = true) : p.b ≠ F.nan ∧ p.b ≠ F.pinf := by
  unfold wfB at h
  cases hb : p.b <;> simp_all [wfIntercept]

theorem wfB_end {p : Building} (h : wfB p = true) : p.end_ ≠ F.nan ∧ p.end_ ≠ F.ninf := by
  unfold wfB at h
  cases he : p.end_ <;> simp_all [wfEnd]

theorem wfB_m_ne_nan {p : Building} (h : wfB p = true) : p.m ≠ F.nan := by
  obtain ⟨q, hq⟩ := wfB_m h; rw [hq]; intro hc; cases hc

theorem all_wfB_get {bs : List Building} (h : bs.all wfB = true) (i : Nat)
    (hi : i < bs.length) : wfB (bs.get ⟨i, hi⟩) = true := by
  rw [List.all_eq_true] at h
  exact h _ (List.get_mem bs i hi)

theorem strictEnds_tail {p : Building} {rest : List Building}
    (h : strictEnds (p :: rest) = true) : strictEnds rest = true := by
  cases rest with
  | nil => rfl
  | cons q r => unfold strictEnds at h; exact (Bool.and_eq_true_iff.1 h).2

theorem strictEnds_get_succ {bs : List Building} (h : strictEnds bs = true) :
    ∀ i (h2 : i + 1 < bs.length),
      flt (bs.get ⟨i, by omega⟩).end_ (bs.get ⟨i + 1, h2⟩).end_ = true := by
  induction bs with
  | nil => intro i h2; simp at h2
  | cons p rest ih =>
      intro i h2
      cases i with
      | zero =>
          cases rest with
          | nil => simp at h2
          | cons q r =>
              unfold strictEnds at h
              exact (Bool.and_eq_true_iff.1 h).1
      | succ k =>
          have := ih (strictEnds_tail h) k (by simpa using h2)
          simpa using this

theorem strictEnds_get {bs : List Building} (h : strictEnds bs = true) :
    ∀ i j (hi : i < bs.length) (hj : j < bs.length), i < j →
      flt (bs.get ⟨i, hi⟩).end_ (bs.get ⟨j, hj⟩).end_ = true := by
  intro i j hi hj hij
  induction j with
  | zero => omega
  | succ k ih =>
      have hk : k < bs.length := by omega
      rcases Nat.lt_succ_iff_lt_or_eq.1 hij with h2 | h2
      · exact flt_trans (ih hk h2) (strictEnds_get_succ h k hj)
      · subst h2
        exact strictEnds_get_succ h i hj

theorem lastEndInf_getLast {bs : List Building} (h : lastEndInf bs = true)
    (hne : bs ≠ []) : (bs.getLast hne).end_ = F.pinf := by
  induction bs with
  | nil => exact absurd rfl hne
  | cons p rest ih =>
      cases rest with
      | nil => simpa [lastEndInf, List.getLast] using h
      | cons q r =>
          unfold lastEndInf at h
          rw [List.getLast_cons (by simp)]
          exact ih h (by simp)

/-- In a sequence with strictly increasing ends terminated by `+∞`, only the
final piece has end `+∞`. -/
theorem end_pinf_only_last {bs : List Building} (hs : strictEnds bs = true)
    {i : Nat} (hi : i < bs.length) (he : (bs.get ⟨i, hi⟩).end_ = F.pinf) :
    i = bs.length - 1 := by
  by_contra hne
  have hlt : i < bs.length - 1 := by omega
  have := strictEnds_get hs i (bs.length - 1) hi (by omega) hlt
  rw [he, flt_pinf_false] at this
  cases this

/-! ### `pieceAt` lemmas -/

theorem pieceAt_single (p : Building) (x : F) : pieceAt [p] x = p := rfl

theorem pieceAt_cons_cons (p q : Building) (rest : List Building) (x : F) :
    pieceAt (p :: q :: rest) x = if fle x p.end_ then p else pieceAt (q :: rest) x := rfl

/-- If every piece before index `i` ends at or before `s`, and
`s < x ≤ end_i`, then the piece containing `x` is the piece at `i`. -/
theorem pieceAt_eq_get {bs : List Building} {i : Nat} (hi : i < bs.length)
    {x s : F}
    (hprev : ∀ k (hk : k < i), fle (bs.get ⟨k, by omega⟩).end_ s = true)
    (hx1 : flt s x = true) (hx2 : fle x (bs.get ⟨i, hi⟩).end_ = true) :
    pieceAt bs x = bs.get ⟨i, hi⟩ := by
  induction bs generalizing i with
  | nil => simp at hi
  | cons p rest ih =>
      cases i with
      | zero =>
          cases rest with
          | nil => rfl
          | cons q r =>
              have hc : fle x p.end_ = true := hx2
              rw [pieceAt_cons_cons, if_pos hc]
              rfl
      | succ k =>
          have hp : fle p.end_ s = true := hprev 0 (by omega)
          have hxp : fle x p.end_ = false := by
            rw [fle_false_iff_flt (flt_ne_nan_right hx1) (fle_ne_nan_left hp)]
            exact flt_of_fle_of_flt hp hx1
          cases rest with
          | nil => simp at hi
          | cons q r =>
              rw [pieceAt_cons_cons, if_neg (by simp [hxp])]
              exact ih (by simpa using hi)
                (fun k2 hk2 => hprev (k2 + 1) (by omega)) hx2

/-- If every piece before index `i` ends at or before `s < x`, looking up `x`
in the whole sequence is the same as looking it up from index `i` on. -/
theorem pieceAt_drop {bs : List Building} {i : Nat} (hi : i < bs.length)
    {x s : F}
    (hprev : ∀ k (hk : k < i), fle (bs.get ⟨k, by omega⟩).end_ s = true)
    (hx1 : flt s x = true) :
    pieceAt bs x = pieceAt (bs.drop i) x := by
  induction bs generalizing i with
  | nil => simp at hi
  | cons p rest ih =>
      cases i with
      | zero => rfl
      | succ k =>
          have hp : fle p.end_ s = true := hprev 0 (by omega)
          have hxp : fle x p.end_ = false := by
            rw [fle_false_iff_flt (flt_ne_nan_right hx1) (fle_ne_nan_left hp)]
            exact flt_of_fle_of_flt hp hx1
          cases rest with
          | nil => simp at hi
          | cons q r =>
              rw [pieceAt_cons_cons, if_neg (by simp [hxp])]
              exact ih (by simpa using hi)
                (fun k2 hk2 => hprev (k2 + 1) (by omega))

/-! ### Soundness of `conceals` on its region of validity

For well-formed buildings (finite slope, intercept finite or `-∞`),
evaluation at a finite point never produces NaN, and the `conceals` test at
`s` really does mean "on top", out to the relevant boundary: everywhere for
equal slopes, for all `x ≥ s` when the concealer is steeper and the crossing
is at or behind `s`, and up to the crossing when the concealer is shallower
and the crossing is ahead. -/

theorem y_fin_shape {p : Building} (h : wfB p = true) (q : ℚ) :
    Building.y p (F.fin q) = F.ninf ∨ ∃ r, Building.y p (F.fin q) = F.fin r := by
  obtain ⟨mq, hm⟩ := wfB_m h
  unfold wfB wfIntercept at h
  cases hb : p.b with
  | ninf => left; unfold Building.y; rw [hb]; simp [fisInfinite]
  | fin bq => right; exact ⟨mq * q + bq, y_fin mq bq q hm hb⟩
  | nan => rw [hb] at h; simp at h
  | pinf => rw [hb] at h; simp at h

theorem y_ne_nan_fin {p : Building} (h : wfB p = true) (q : ℚ) :
    Building.y p (F.fin q) ≠ F.nan := by
  rcases y_fin_shape h q with h2 | ⟨r, h2⟩ <;> rw [h2] <;> intro hc <;> cases hc

/-- Equal-slope case: larger intercept is on top everywhere (finite `x`). -/
theorem conceals_sound_eq {b c : Building} (hwb : wfB b = true) (hwc : wfB c = true)
    (hm : feq b.m c.m = true) (hb : fle c.b b.b = true) (q : ℚ) :
    fle (Building.y c (F.fin q)) (Building.y b (F.fin q)) = true := by
  obtain ⟨mb, hmb⟩ := wfB_m hwb
  obtain ⟨mc, hmc⟩ := wfB_m hwc
  cases hcb : c.b with
  | ninf =>
      have h1 : Building.y c (F.fin q) = F.ninf := by
        unfold Building.y; rw [hcb]; simp [fisInfinite]
      rw [h1]
      exact fle_ninf (y_ne_nan_fin hwb q)
  | fin cq =>
      cases hbb : b.b with
      | ninf => rw [hcb, hbb] at hb; simp [fle] at hb
      | fin bq =>
          have hmm : mb = mc := by
            rw [hmb, hmc] at hm; simpa [feq] using hm
          rw [y_fin mb bq q hmb hbb, y_fin mc cq q hmc hcb, fle_fin]
          simp only [decide_eq_true_eq]
          have hle : cq ≤ bq := by
            rw [hcb, hbb] at hb; simpa [fle] using hb
          rw [hmm]
          linarith
      | nan => exact absurd hbb (wfB_b hwb).1
      | pinf => exact absurd hbb (wfB_b hwb).2
  | nan => exact absurd hcb (wfB_b hwc).1
  | pinf => exact absurd hcb (wfB_b hwc).2

/-- Steeper concealer, crossing at or behind `s`: on top for all finite
`x ≥ s` (with `s < +∞`). -/
theorem conceals_sound_steep {b c : Building} (hwb : wfB b = true) (hwc : wfB c = true)
    (hm : flt c.m b.m = true) (hs : s ≠ F.nan) (hsp : s ≠ F.pinf)
    (hix : fle (Building.intersection b c) s = true) (q : ℚ)
    (hq : fle s (F.fin q) = true) :
    fle (Building.y c (F.fin q)) (Building.y b (F.fin q)) = true := by
  obtain ⟨mb, hmb⟩ := wfB_m hwb
  obtain ⟨mc, hmc⟩ := wfB_m hwc
  have hmlt : mc < mb := by rw [hmb, hmc] at hm; simpa [flt] using hm
  cases hcb : c.b with
  | ninf =>
      have h1 : Building.y c (F.fin q) = F.ninf := by
        unfold Building.y; rw [hcb]; simp [fisInfinite]
      rw [h1]
      exact fle_ninf (y_ne_nan_fin hwb q)
  | fin cq =>
      cases hbb : b.b with
      | ninf =>
          exfalso
          have hixv : Building.intersection b c = F.pinf := by
            unfold Building.intersection
            rw [hbb, hcb, hmb, hmc]
            have hpos : (0:ℚ) ≤ mb - mc := by linarith
            simp only [fsub, fneg, fadd]
            rw [show mb + -mc = mb - mc by ring]
            simp [fdiv, fisNaN, hpos]
          rw [hixv] at hix
          cases hsv : s <;> rw [hsv] at hix <;> simp_all [fle]
      | fin bq =>
          have hden : mb - mc ≠ 0 := by linarith
          have hixv : Building.intersection b c = F.fin ((cq - bq) / (mb - mc)) := by
            unfold Building.intersection
            rw [hbb, hcb, hmb, hmc, fsub_fin, fsub_fin, fdiv_fin _ _ hden]
            simp [fisNaN]
          rw [hixv] at hix
          obtain ⟨sq, hsv⟩ : ∃ r, s = F.fin r := by
            cases hsv : s <;> rw [hsv] at hix hs hsp <;> simp_all [fle]
          rw [hsv] at hix hq
          have h1 : (cq - bq) / (mb - mc) ≤ sq := by simpa [fle] using hix
          have h2 : sq ≤ q := by simpa [fle] using hq
          rw [y_fin mb bq q hmb hbb, y_fin mc cq q hmc hcb, fle_fin]
          simp only [decide_eq_true_eq]
          have h3 : cq - bq ≤ sq * (mb - mc) :=
            (div_le_iff (by linarith)).1 h1
          nlinarith
      | nan => exact absurd hbb (wfB_b hwb).1
      | pinf => exact absurd hbb (wfB_b hwb).2
  | nan => exact absurd hcb (wfB_b hwc).1
  | pinf => exact absurd hcb (wfB_b hwc).2

/-- Shallower concealer, crossing strictly ahead of `s`: on top for all
finite `x ≤ crossing`. -/
theorem conceals_sound_shallow {b c : Building} (hwb : wfB b = true) (hwc : wfB c = true)
    (hm : flt b.m c.m = true) (hs : s ≠ F.nan)
    (hix : flt s (Building.intersection b c) = true) (q : ℚ)
    (hq : fle (F.fin q) (Building.intersection b c) = true) :
    fle (Building.y c (F.fin q)) (Building.y b (F.fin q)) = true := by
  obtain ⟨mb, hmb⟩ := wfB_m hwb
  obtain ⟨mc, hmc⟩ := wfB_m hwc
  have hmlt : mb < mc := by rw [hmb, hmc] at hm; simpa [flt] using hm
  cases hcb : c.b with
  | ninf =>
      have h1 : Building.y c (F.fin q) = F.ninf := by
        unfold Building.y; rw [hcb]; simp [fisInfinite]
      rw [h1]
      exact fle_ninf (y_ne_nan_fin hwb q)
  | fin cq =>
      cases hbb : b.b with
      | ninf =>
          exfalso
          have hixv : Building.intersection b c = F.ninf := by
            unfold Building.intersection
            rw [hbb, hcb, hmb, hmc]
            have hneg : ¬ ((0:ℚ) ≤ mb - mc) := by
              intro hc2; linarith
            simp only [fsub, fneg, fadd]
            rw [show mb + -mc = mb - mc by ring]
            simp [fdiv, fisNaN, hneg]
          rw [hixv] at hix
          rw [flt_any_ninf_false] at hix
          cases hix
      | fin bq =>
          have hden : mb - mc ≠ 0 := by linarith
          have hixv : Building.intersection b c = F.fin ((cq - bq) / (mb - mc)) := by
            unfold Building.intersection
            rw [hbb, hcb, hmb, hmc, fsub_fin, fsub_fin, fdiv_fin _ _ hden]
            simp [fisNaN]
          rw [hixv] at hq
          have h2 : q ≤ (cq - bq) / (mb - mc) := by simpa [fle] using hq
          rw [y_fin mb bq q hmb hbb, y_fin mc cq q hmc hcb, fle_fin]
          simp only [decide_eq_true_eq]
          have h3 : 0 ≤ (mb - mc) * (q - (cq - bq) / (mb - mc)) := by
            have := mul_nonneg (show (0:ℚ) ≤ -(mb - mc) by linarith)
              (show (0:ℚ) ≤ -(q - (cq - bq) / (mb - mc)) by linarith)
            nlinarith [this]
          have h4 : (mb - mc) * ((cq - bq) / (mb - mc)) = cq - bq := by
            field_simp
          nlinarith [h3, h4]
      | nan => exact absurd hbb (wfB_b hwb).1
      | pinf => exact absurd hbb (wfB_b hwb).2
  | nan => exact absurd hcb (wfB_b hwc).1
  | pinf => exact absurd hcb (wfB_b hwc).2

/-! ### Branch equations for `first_intersection` -/

theorem fi_eq_base (b : Building) (bldgs : List Building) (s : F) (idx : Nat)
    (h : ¬ idx < bldgs.length) :
    Skyline.first_intersection b bldgs s idx = (F.pinf, idx) := by
  rw [Skyline.first_intersection]
  simp [h]

theorem fi_eq_not_conceals (b : Building) (bldgs : List Building) (s : F) (idx : Nat)
    (h : idx < bldgs.length)
    (hc : b.conceals_with_intersect (bldgs.get ⟨idx, h⟩) s
      (b.intersection (bldgs.get ⟨idx, h⟩)) = false) :
    Skyline.first_intersection b bldgs s idx = (s, idx) := by
  simp only [List.get_eq_getElem] at hc
  rw [Skyline.first_intersection]
  simp [h, hc]

theorem fi_eq_cross (b : Building) (bldgs : List Building) (s : F) (idx : Nat)
    (h : idx < bldgs.length)
    (hc : b.conceals_with_intersect (bldgs.get ⟨idx, h⟩) s
      (b.intersection (bldgs.get ⟨idx, h⟩)) = true)
    (hx : (flt s (b.intersection (bldgs.get ⟨idx, h⟩)) &&
      flt (b.intersection (bldgs.get ⟨idx, h⟩))
        (fmin b.end_ (bldgs.get ⟨idx, h⟩).end_)) = true) :
    Skyline.first_intersection b bldgs s idx
      = (b.intersection (bldgs.get ⟨idx, h⟩), idx) := by
  simp only [List.get_eq_getElem] at hc hx
  rw [Skyline.first_intersection]
  simp [h, hc, hx]

theorem fi_eq_bend (b : Building) (bldgs : List Building) (s : F) (idx : Nat)
    (h : idx < bldgs.length)
    (hc : b.conceals_with_intersect (bldgs.get ⟨idx, h⟩) s
      (b.intersection (bldgs.get ⟨idx, h⟩)) = true)
    (hx : (flt s (b.intersection (bldgs.get ⟨idx, h⟩)) &&
      flt (b.intersection (bldgs.get ⟨idx, h⟩))
        (fmin b.end_ (bldgs.get ⟨idx, h⟩).end_)) = false)
    (hb : flt b.end_ (bldgs.get ⟨idx, h⟩).end_ = true) :
    Skyline.first_intersection b bldgs s idx = (b.end_, idx) := by
  simp only [List.get_eq_getElem] at hc hx hb
  rw [Skyline.first_intersection]
  simp [h, hc, hx, hb]

theorem fi_eq_advance (b : Building) (bldgs : List Building) (s : F) (idx : Nat)
    (h : idx < bldgs.length)
    (hc : b.conceals_with_intersect (bldgs.get ⟨idx, h⟩) s
      (b.intersection (bldgs.get ⟨idx, h⟩)) = true)
    (hx : (flt s (b.intersection (bldgs.get ⟨idx, h⟩)) &&
      flt (b.intersection (bldgs.get ⟨idx, h⟩))
        (fmin b.end_ (bldgs.get ⟨idx, h⟩).end_)) = false)
    (hb : flt b.end_ (bldgs.get ⟨idx, h⟩).end_ = false) :
    Skyline.first_intersection b bldgs s idx
      = Skyline.first_intersection b bldgs (bldgs.get ⟨idx, h⟩).end_ (idx + 1) := by
  simp only [List.get_eq_getElem] at hc hx hb
  rw [Skyline.first_intersection]
  simp [h, hc, hx, hb]

theorem flt_left_ne_pinf {a b : F} (h : flt a b = true) : a ≠ F.pinf := by
  intro hc; rw [hc, flt_pinf_false] at h; cases h

theorem fle_pinf_left {a : F} (h : fle F.pinf a = true) : a = F.pinf := by
  cases a <;> simp_all [fle]

theorem pieceAt_cons_of_le {p : Building} {rest : List Building} {x : F}
    (h : fle x p.end_ = true) : pieceAt (p :: rest) x = p := by
  cases rest with
  | nil => rfl
  | cons q r => rw [pieceAt_cons_cons, if_pos h]

theorem pieceAt_cons_of_gt {p : Building} {rest : List Building} {x : F}
    (hne : rest ≠ []) (h : fle x p.end_ = false) :
    pieceAt (p :: rest) x = pieceAt rest x := by
  cases rest with
  | nil => exact absurd rfl hne
  | cons q r => rw [pieceAt_cons_cons, if_neg (by simp [h])]

/-- With equal (well-formed, hence finite) slopes the normalized intersection
is one of the two infinities. -/
theorem intersection_eq_slope {b c : Building} (hwb : wfB b = true)
    (hwc : wfB c = true) (hm : feq b.m c.m = true) :
    b.intersection c = F.ninf ∨ b.intersection c = F.pinf := by
  obtain ⟨mb, hmb⟩ := wfB_m hwb
  obtain ⟨mc, hmc⟩ := wfB_m hwc
  have hmm : mb = mc := by rw [hmb, hmc] at hm; simpa [feq] using hm
  unfold Building.intersection
  rw [hmb, hmc, hmm, fsub_fin]
  have hz : mc - mc = 0 := by ring
  rw [hz]
  have hb := wfB_b hwb
  have hc := wfB_b hwc
  cases hbb : b.b with
  | nan => exact absurd hbb hb.1
  | pinf => exact absurd hbb hb.2
  | ninf =>
      cases hcb : c.b with
      | nan => exact absurd hcb hc.1
      | pinf => exact absurd hcb hc.2
      | ninf => left; simp [fsub, fadd, fneg, fdiv, fisNaN]
      | fin cq => right; simp [fsub, fadd, fneg, fdiv, fisNaN]
  | fin bq =>
      cases hcb : c.b with
      | nan => exact absurd hcb hc.1
      | pinf => exact absurd hcb hc.2
      | ninf => left; simp [fsub, fadd, fneg, fdiv, fisNaN]
      | fin cq =>
          rw [fsub_fin]
          by_cases hd : cq - bq = 0
          · left; simp [fdiv, hd, fisNaN]
          · rcases lt_or_gt_of_ne hd with h2 | h2
            · left
              simp [fdiv, hd, fisNaN, show ¬ ((0:ℚ) < cq - bq) by linarith]
            · right
              simp [fdiv, hd, fisNaN, h2]

/-- The three ways `conceals_with_intersect` can succeed. -/
theorem cwi_cases {b c : Building} {s ix : F}
    (h : b.conceals_with_intersect c s ix = true) :
    (feq b.m c.m = true ∧ fle c.b b.b = true) ∨
    (feq b.m c.m = false ∧ fle ix s = true ∧ flt c.m b.m = true) ∨
    (feq b.m c.m = false ∧ flt s ix = true ∧ flt b.m c.m = true) := by
  unfold Building.conceals_with_intersect at h
  by_cases hm : feq b.m c.m = true
  · rw [if_pos hm] at h
    exact Or.inl ⟨hm, h⟩
  · have hm' : feq b.m c.m = false := by simp_all
    rw [if_neg (by simp [hm'])] at h
    rcases Bool.or_eq_true_iff.1 h with h2 | h2
    · obtain ⟨ha, hb2⟩ := Bool.and_eq_true_iff.1 h2
      exact Or.inr (Or.inl ⟨hm', ha, hb2⟩)
    · obtain ⟨ha, hb2⟩ := Bool.and_eq_true_iff.1 h2
      exact Or.inr (Or.inr ⟨hm', ha, hb2⟩)

/-- Full specification of one `first_intersection` call: the cursor moves
forward but stays in range, the returned sweep position lies in
`[start, b.end]`, is not NaN, strictly advances when the entry `conceals`
test succeeds and `start < b.end`, skips exactly the pieces that end at or
before it, normalizes `+∞` with cursor exhaustion, and — the semantic core —
`b` is on or above every skipped-or-current piece of `bldgs` throughout the
emitted stretch. -/
structure FiSpec (b : Building) (bldgs : List Building) (s : F) (idx : Nat)
    (ns : F) (j2 : Nat) : Prop where
  mono : idx ≤ j2
  le_len : j2 ≤ bldgs.length
  ge_start : fle s ns = true
  le_bend : fle ns b.end_ = true
  ne_nan : ns ≠ F.nan
  strict : ∀ (hidx : idx < bldgs.length),
      b.conceals (bldgs.get ⟨idx, hidx⟩) s = true → flt s b.end_ = true →
      flt s ns = true
  skipped : ∀ k (hk1 : idx ≤ k) (hk2 : k < bldgs.length), k < j2 →
      fle (bldgs.get ⟨k, hk2⟩).end_ ns = true
  next : ∀ (hj : j2 < bldgs.length), flt ns (bldgs.get ⟨j2, hj⟩).end_ = true
  inf_iff : ns = F.pinf ↔ j2 = bldgs.length
  noadv : j2 = idx → ∀ (hidx : idx < bldgs.length),
      ns = s ∨ ns = b.intersection (bldgs.get ⟨idx, hidx⟩) ∨ ns = b.end_
  sem : ∀ q : ℚ, flt s (F.fin q) = true → fle (F.fin q) ns = true →
      fle (Building.y (pieceAt (bldgs.drop idx) (F.fin q)) (F.fin q))
        (Building.y b (F.fin q)) = true

theorem fi_spec (b : Building) (bldgs : List Building)
    (H1 : bldgs.all wfB = true) (H2 : strictEnds bldgs = true)
    (H3 : wfB b = true) (H4 : lastEndInf bldgs = true)
    (s : F) (idx : Nat) (hs : s ≠ F.nan) (hsb : fle s b.end_ = true)
    (hidx0 : idx ≤ bldgs.length)
    (hbase : idx = bldgs.length → b.end_ = F.pinf)
    (hso : ∀ (hidx : idx < bldgs.length), flt s (bldgs.get ⟨idx, hidx⟩).end_ = true) :
    FiSpec b bldgs s idx (Skyline.first_intersection b bldgs s idx).1
      (Skyline.first_intersection b bldgs s idx).2 := by
  have hbe : b.end_ ≠ F.nan := (wfB_end H3).1
  by_cases hidx : idx < bldgs.length
  case neg =>
    -- base: the cursor has left the sequence
    have hlen : idx = bldgs.length := by omega
    have hbp : b.end_ = F.pinf := hbase hlen
    rw [fi_eq_base b bldgs s idx hidx]
    refine ⟨Nat.le_refl idx, by omega, fle_pinf hs,
      (by rw [hbp]; exact fle_refl (fun h => by cases h)),
      (fun h => by cases h), ?_, ?_, ?_, ?_, ?_, ?_⟩
    · intro h2; omega
    · intro k hk1 hk2 hk3; omega
    · intro hj; omega
    · constructor
      · intro _; exact hlen
      · intro _; rfl
    · intro _ hidx2; omega
    · intro q hq1 hq2
      rw [hlen, List.drop_length]
      have h1 : Building.y (pieceAt [] (F.fin q)) (F.fin q) = F.ninf := by
        unfold pieceAt Building.y Building.empty
        simp [fisInfinite]
      rw [h1]
      exact fle_ninf (y_ne_nan_fin H3 q)
  case pos =>
  set other := bldgs.get ⟨idx, hidx⟩ with hother
  have hwo : wfB other = true := all_wfB_get H1 idx hidx
  have hoe : other.end_ ≠ F.nan := (wfB_end hwo).1
  have hsoi : flt s other.end_ = true := hso hidx
  have hsp : s ≠ F.pinf := flt_left_ne_pinf hsoi
  have hdropc : bldgs.drop idx = other :: bldgs.drop (idx + 1) := by
    rw [List.drop_eq_getElem_cons hidx]
    rfl
  have hixn : b.intersection other ≠ F.nan := intersection_ne_nan b other
  by_cases hc : b.conceals_with_intersect other s (b.intersection other) = true
  case neg =>
    have hc' : b.conceals_with_intersect other s (b.intersection other) = false := by
      simp_all
    rw [fi_eq_not_conceals b bldgs s idx hidx hc']
    refine ⟨Nat.le_refl idx, by omega, fle_refl hs, hsb, hs, ?_, ?_, ?_, ?_, ?_, ?_⟩
    · intro hidx2 hcon
      exact absurd hcon hc
    · intro k hk1 hk2 hk3; omega
    · intro hj; exact hso hj
    · exact iff_of_false hsp (by omega)
    · intro _ _; exact Or.inl rfl
    · intro q hq1 hq2
      exact absurd (flt_of_flt_of_fle hq1 hq2) (by simp [flt_irrefl])
  case pos =>
  by_cases hx : (flt s (b.intersection other) &&
      flt (b.intersection other) (fmin b.end_ other.end_)) = true
  case pos =>
    -- crossing strictly inside both pieces
    obtain ⟨hx1, hx2⟩ := Bool.and_eq_true_iff.1 hx
    have hixbe : flt (b.intersection other) b.end_ = true :=
      flt_of_flt_of_fle hx2 (fmin_le_left hbe hoe)
    have hixoe : flt (b.intersection other) other.end_ = true :=
      flt_of_flt_of_fle hx2 (fmin_le_right hbe hoe)
    rw [fi_eq_cross b bldgs s idx hidx hc hx]
    have hshallow : flt b.m other.m = true := by
      rcases cwi_cases hc with ⟨hm, _⟩ | ⟨_, hix, _⟩ | ⟨_, _, hsh⟩
      · rcases intersection_eq_slope H3 hwo hm with h2 | h2
        · rw [h2] at hx1
          exact absurd hx1 (by cases s <;> simp [flt])
        · exact absurd (h2 ▸ hx2) (by simp [flt_pinf_false])
      · exact absurd (flt_of_fle_of_flt hix hx1) (by simp [flt_irrefl])
      · exact hsh
    refine ⟨Nat.le_refl idx, by omega, fle_of_flt hx1, fle_of_flt hixbe,
      flt_ne_nan_right hx1, fun _ _ _ => hx1, ?_, ?_, ?_, ?_, ?_⟩
    · intro k hk1 hk2 hk3; omega
    · intro hj; exact hixoe
    · exact iff_of_false (flt_left_ne_pinf hx2) (by omega)
    · intro _ _; exact Or.inr (Or.inl rfl)
    · intro q hq1 hq2
      rw [hdropc, pieceAt_cons_of_le (fle_of_flt (flt_of_fle_of_flt hq2 hixoe))]
      exact conceals_sound_shallow H3 hwo hshallow hs hx1 q hq2
  case neg =>
  have hx' : (flt s (b.intersection other) &&
      flt (b.intersection other) (fmin b.end_ other.end_)) = false := by simp_all
  by_cases hb2 : flt b.end_ other.end_ = true
  case pos =>
    -- b ends before the current piece of bldgs
    rw [fi_eq_bend b bldgs s idx hidx hc hx' hb2]
    have hfmin : fmin b.end_ other.end_ = b.end_ := fmin_eq_left (fle_of_flt hb2)
    refine ⟨Nat.le_refl idx, by omega, hsb, fle_refl hbe, hbe,
      fun _ _ h => h, ?_, ?_, ?_, ?_, ?_⟩
    · intro k hk1 hk2 hk3; omega
    · intro hj; exact hb2
    · exact iff_of_false (flt_left_ne_pinf hb2) (by omega)
    · intro _ _; exact Or.inr (Or.inr rfl)
    · intro q hq1 hq2
      have hqo : fle (F.fin q) other.end_ = true :=
        fle_trans hq2 (fle_of_flt hb2)
      rw [hdropc, pieceAt_cons_of_le hqo]
      rcases cwi_cases hc with ⟨hm, hble⟩ | ⟨_, hix, hsteep⟩ | ⟨_, hsix, hsh⟩
      · exact conceals_sound_eq H3 hwo hm hble q
      · exact conceals_sound_steep H3 hwo hsteep hs hsp hix q (fle_of_flt hq1)
      · have hxf : flt (b.intersection other) (fmin b.end_ other.end_) = false := by
          by_contra hcc
          simp only [Bool.not_eq_false] at hcc
          rw [hsix, hcc] at hx'
          simp at hx'
        rw [hfmin] at hxf
        have hfle : fle b.end_ (b.intersection other) = true :=
          (flt_false_iff_fle hixn hbe).1 hxf
        exact conceals_sound_shallow H3 hwo hsh hs hsix q
          (fle_trans hq2 hfle)
  case neg =>
    -- the current piece of bldgs ends first (or together): advance
    have hb2' : flt b.end_ other.end_ = false := by simp_all
    rw [fi_eq_advance b bldgs s idx hidx hc hx' hb2']
    have hob : fle other.end_ b.end_ = true := (flt_false_iff_fle hbe hoe).1 hb2'
    have hlastp : idx + 1 = bldgs.length → other.end_ = F.pinf := by
      intro hlast
      have hne : bldgs ≠ [] := by intro hn; rw [hn] at hidx; simp at hidx
      have h5 : (⟨idx, hidx⟩ : Fin bldgs.length) = ⟨bldgs.length - 1, by omega⟩ :=
        Fin.ext (by simp; omega)
      rw [hother, h5, List.get_length_sub_one]
      exact lastEndInf_getLast H4 _
    have hbase' : idx + 1 = bldgs.length → b.end_ = F.pinf := by
      intro hlast
      rw [hlastp hlast] at hob
      exact fle_pinf_left hob
    have R := fi_spec b bldgs H1 H2 H3 H4 other.end_ (idx + 1) hoe hob
      (by omega) hbase'
      (fun h2 => strictEnds_get_succ H2 idx h2)
    set ns := (Skyline.first_intersection b bldgs other.end_ (idx + 1)).1
    set j2 := (Skyline.first_intersection b bldgs other.end_ (idx + 1)).2
    have hsoe : fle s ns = true := fle_trans (fle_of_flt hsoi) R.ge_start
    refine ⟨Nat.le_trans (by omega) R.mono, R.le_len, hsoe, R.le_bend, R.ne_nan,
      ?_, ?_, R.next, R.inf_iff, (fun h _ => absurd h (by have := R.mono; omega)), ?_⟩
    · intro _ _ _
      exact flt_of_flt_of_fle hsoi R.ge_start
    · intro k hk1 hk2 hk3
      rcases Nat.eq_or_lt_of_le hk1 with h2 | h2
      · have h5 : (⟨k, hk2⟩ : Fin bldgs.length) = ⟨idx, hidx⟩ :=
          Fin.ext (by simp; omega)
        rw [h5, ← hother]
        exact R.ge_start
      · exact R.skipped k (by omega) hk2 hk3
    · intro q hq1 hq2
      rw [hdropc]
      by_cases hqo : fle (F.fin q) other.end_ = true
      · rw [pieceAt_cons_of_le hqo]
        rcases cwi_cases hc with ⟨hm, hble⟩ | ⟨_, hix, hsteep⟩ | ⟨_, hsix, hsh⟩
        · exact conceals_sound_eq H3 hwo hm hble q
        · exact conceals_sound_steep H3 hwo hsteep hs hsp hix q (fle_of_flt hq1)
        · have hxf : flt (b.intersection other) (fmin b.end_ other.end_) = false := by
            by_contra hcc
            simp only [Bool.not_eq_false] at hcc
            rw [hsix, hcc] at hx'
            simp at hx'
          rw [fmin_eq_right hob] at hxf
          have hfle : fle other.end_ (b.intersection other) = true :=
            (flt_false_iff_fle hixn hoe).1 hxf
          exact conceals_sound_shallow H3 hwo hsh hs hsix q (fle_trans hqo hfle)
      · have hqo' : fle (F.fin q) other.end_ = false := by simp_all
        have hlt : flt other.end_ (F.fin q) = true :=
          (fle_false_iff_flt (by intro h; cases h) hoe).1 hqo'
        have hrest : bldgs.drop (idx + 1) ≠ [] := by
          intro hn
          have hl2 : idx + 1 = bldgs.length := by
            have := List.drop_eq_nil_iff_le.1 hn
            omega
          rw [hlastp hl2] at hqo'
          simp [fle] at hqo'
        rw [pieceAt_cons_of_gt hrest hqo']
        exact R.sem q hlt hq2
termination_by bldgs.length - idx
decreasing_by omega

/-! ### Branch equations for `mergeLoop`, and chain helpers -/

theorem ml_done (in1 in2 : List Building) (fuel i j : Nat) (start : F)
    (out : List Building) (h : ¬ (i < in1.length ∧ j < in2.length)) :
    Skyline.mergeLoop in1 in2 fuel i j start out = (i, j, out) := by
  cases fuel with
  | zero => rfl
  | succ f => rw [Skyline.mergeLoop]; simp [h]

theorem ml_eq_if (in1 in2 : List Building) (fuel i j : Nat) (start : F)
    (out : List Building) (h1 : i < in1.length) (h2 : j < in2.length)
    (hc : (in1.get ⟨i, h1⟩).conceals (in2.get ⟨j, h2⟩) start = true) :
    Skyline.mergeLoop in1 in2 (fuel + 1) i j start out
      = Skyline.mergeLoop in1 in2 fuel
          (if fle (in1.get ⟨i, h1⟩).end_ (Skyline.first_intersection (in1.get ⟨i, h1⟩) in2 start j).1 then i + 1 else i)
          (Skyline.first_intersection (in1.get ⟨i, h1⟩) in2 start j).2
          (Skyline.first_intersection (in1.get ⟨i, h1⟩) in2 start j).1
          (out ++ [(in1.get ⟨i, h1⟩).chop (Skyline.first_intersection (in1.get ⟨i, h1⟩) in2 start j).1]) := by
  simp only [List.get_eq_getElem] at hc ⊢
  rw [Skyline.mergeLoop]
  simp [h1, h2, hc]

theorem ml_eq_else (in1 in2 : List Building) (fuel i j : Nat) (start : F)
    (out : List Building) (h1 : i < in1.length) (h2 : j < in2.length)
    (hc : (in1.get ⟨i, h1⟩).conceals (in2.get ⟨j, h2⟩) start = false) :
    Skyline.mergeLoop in1 in2 (fuel + 1) i j start out
      = Skyline.mergeLoop in1 in2 fuel
          (Skyline.first_intersection (in2.get ⟨j, h2⟩) in1 start i).2
          (if fle (in2.get ⟨j, h2⟩).end_ (Skyline.first_intersection (in2.get ⟨j, h2⟩) in1 start i).1 then j + 1 else j)
          (Skyline.first_intersection (in2.get ⟨j, h2⟩) in1 start i).1
          (out ++ [(in2.get ⟨j, h2⟩).chop (Skyline.first_intersection (in2.get ⟨j, h2⟩) in1 start i).1]) := by
  simp only [List.get_eq_getElem] at hc ⊢
  rw [Skyline.mergeLoop]
  simp [h1, h2, hc]

theorem y_chop (w : Building) (e x : F) : (w.chop e).y x = w.y x := rfl

/-- Appending a strictly later end preserves the chain. -/
theorem chain_snoc {l : List F} {a x : F}
    (h : List.Chain (fun u v => flt u v = true) a l)
    (hx : flt (l.getLastD a) x = true) :
    List.Chain (fun u v => flt u v = true) a (l ++ [x]) := by
  induction l generalizing a with
  | nil => exact List.Chain.cons hx List.Chain.nil
  | cons b t ih =>
      rcases h with _ | ⟨hab, hbt⟩
      rw [List.getLastD_cons] at hx
      exact List.Chain.cons hab (ih hbt hx)

theorem getLastD_snoc (l : List F) (a x : F) : (l ++ [x]).getLastD a = x := by
  induction l generalizing a with
  | nil => rfl
  | cons b t ih =>
      rw [List.cons_append, List.getLastD_cons]
      exact ih b

/-- The head of an increasing chain is at most the last element. -/
theorem chain_base_le {t : List F} {b : F} (hb : b ≠ F.nan)
    (h : List.Chain (fun u v => flt u v = true) b t) :
    fle b (t.getLastD b) = true := by
  induction t generalizing b with
  | nil => exact fle_refl hb
  | cons c t2 ih =>
      rcases h with _ | ⟨hbc, hct⟩
      rw [List.getLastD_cons]
      exact fle_trans (fle_of_flt hbc) (ih (flt_ne_nan_right hbc) hct)

/-- Along an increasing chain, every element is at most the last. -/
theorem chain_le_getLastD {l : List F} {a : F} (ha : a ≠ F.nan)
    (h : List.Chain (fun u v => flt u v = true) a l) :
    ∀ x ∈ l, fle x (l.getLastD a) = true := by
  induction l generalizing a with
  | nil => intro x hx; cases hx
  | cons b t ih =>
      rcases h with _ | ⟨hab, hbt⟩
      intro x hx
      rw [List.getLastD_cons]
      rcases List.mem_cons.1 hx with h2 | h2
      · subst h2; exact chain_base_le (flt_ne_nan_right hab) hbt
      · exact ih (flt_ne_nan_right hab) hbt x h2

theorem chain_end_ne_nan {l : List F} {a : F}
    (h : List.Chain (fun u v => flt u v = true) a l) (x : F) (hx : x ∈ l) :
    x ≠ F.nan := by
  induction l generalizing a with
  | nil => cases hx
  | cons b t ih =>
      rcases h with _ | ⟨hab, hbt⟩
      rcases List.mem_cons.1 hx with h2 | h2
      · subst h2; exact flt_ne_nan_right hab
      · exact ih hbt h2

/-- Looking up a point at or before the last end of `out` ignores an
appended piece. -/
theorem pieceAt_snoc_le {out : List Building} (hne : out ≠ []) {p : Building} {x : F}
    (hx : fle x ((out.map Building.end_).getLastD F.ninf) = true) :
    pieceAt (out ++ [p]) x = pieceAt out x := by
  induction out with
  | nil => exact absurd rfl hne
  | cons o t ih =>
      cases t with
      | nil =>
          have hx2 : fle x o.end_ = true := by simpa using hx
          simp only [List.cons_append, List.nil_append]
          rw [pieceAt_cons_cons, if_pos hx2, pieceAt_single]
      | cons o2 t2 =>
          have hx2 : ((o2 :: t2).map Building.end_).getLastD F.ninf
              = (((o :: o2 :: t2).map Building.end_)).getLastD F.ninf := by
            simp [List.getLastD_cons]
          by_cases hxo : fle x o.end_ = true
          · simp only [List.cons_append]
            rw [pieceAt_cons_cons, if_pos hxo, pieceAt_cons_cons, if_pos hxo]
          · have hxo' : fle x o.end_ = false := by simp_all
            simp only [List.cons_append]
            rw [pieceAt_cons_cons, if_neg (by simp [hxo']),
              pieceAt_cons_cons, if_neg (by simp [hxo'])]
            exact ih (by simp) (by rw [hx2]; exact hx)

/-- Looking up a point past every end of `out` lands in the appended piece. -/
theorem pieceAt_snoc_gt {out : List Building} {p : Building} {x s : F}
    (hends : ∀ o ∈ out, fle o.end_ s = true) (hx : flt s x = true) :
    pieceAt (out ++ [p]) x = p := by
  induction out with
  | nil => rfl
  | cons o t ih =>
      have ho : fle o.end_ s = true := hends o (by simp)
      have hxo : fle x o.end_ = false := by
        rw [fle_false_iff_flt (flt_ne_nan_right hx) (fle_ne_nan_left ho)]
        exact flt_of_fle_of_flt ho hx
      cases t with
      | nil =>
          simp only [List.cons_append, List.nil_append]
          rw [pieceAt_cons_cons, if_neg (by simp [hxo]), pieceAt_single]
      | cons o2 t2 =>
          simp only [List.cons_append]
          rw [pieceAt_cons_cons, if_neg (by simp [hxo])]
          exact ih (fun o3 h3 => hends o3 (by simp [h3]))

/-! ### One step of the merge sweep

`StepFacts` collects what one winning branch of the merge loop establishes:
the sweep advances to `ns`, both cursors stay in range (or exhaust exactly
at `+∞`), skipped pieces end at or before `ns`, and on the emitted stretch
`(start, ns]` the winner's line equals the winner-side skyline and dominates
the loser-side skyline. -/
structure StepFacts (inW inL : List Building) (w l : Building)
    (iw il : Nat) (start ns : F) (il2 iw2 : Nat) : Prop where
  adv : flt start ns = true
  ne_nan : ns ≠ F.nan
  il2_ge : il ≤ il2
  il2_le : il2 ≤ inL.length
  prevL : ∀ k (hk : k < inL.length), k < il2 → fle (inL.get ⟨k, hk⟩).end_ ns = true
  nextL : ∀ (hj : il2 < inL.length), flt ns (inL.get ⟨il2, hj⟩).end_ = true
  infL : ns = F.pinf ↔ il2 = inL.length
  iw2_ge : iw ≤ iw2
  iw2_le : iw2 ≤ inW.length
  prevW : ∀ k (hk : k < inW.length), k < iw2 → fle (inW.get ⟨k, hk⟩).end_ ns = true
  runW : ns ≠ F.pinf → iw2 < inW.length
  nextW : ∀ (h : iw2 < inW.length), flt ns (inW.get ⟨iw2, h⟩).end_ = true
  infW : ns = F.pinf → iw2 = inW.length
  le_wend : fle ns w.end_ = true
  wfw : fIsFin w.m = true ∧ wfIntercept w.b = true
  weq : ∀ q : ℚ, flt start (F.fin q) = true → fle (F.fin q) ns = true →
      evalSky inW (F.fin q) = Building.y w (F.fin q)
  lle : ∀ q : ℚ, flt start (F.fin q) = true → fle (F.fin q) ns = true →
      fle (evalSky inL (F.fin q)) (Building.y w (F.fin q)) = true
  noadv2 : il2 = il → iw2 = iw →
      feq w.m l.m = false ∧ flt w.m l.m = true ∧ ns = w.intersection l ∧
      flt ns l.end_ = true ∧ flt ns w.end_ = true

theorem merge_step
    (inW inL : List Building)
    (W1 : inW.all wfB = true) (W2 : strictEnds inW = true) (W4 : lastEndInf inW = true)
    (L1 : inL.all wfB = true) (L2 : strictEnds inL = true) (L4 : lastEndInf inL = true)
    (iw il : Nat) (start : F)
    (hiw : iw < inW.length) (hil : il < inL.length)
    (hsnan : start ≠ F.nan)
    (hsW : flt start (inW.get ⟨iw, hiw⟩).end_ = true)
    (hsL : flt start (inL.get ⟨il, hil⟩).end_ = true)
    (hprevW : ∀ k (hk : k < inW.length), k < iw → fle (inW.get ⟨k, hk⟩).end_ start = true)
    (hprevL : ∀ k (hk : k < inL.length), k < il → fle (inL.get ⟨k, hk⟩).end_ start = true)
    (hcon : (inW.get ⟨iw, hiw⟩).conceals (inL.get ⟨il, hil⟩) start = true) :
    StepFacts inW inL (inW.get ⟨iw, hiw⟩) (inL.get ⟨il, hil⟩) iw il start
      (Skyline.first_intersection (inW.get ⟨iw, hiw⟩) inL start il).1
      (Skyline.first_intersection (inW.get ⟨iw, hiw⟩) inL start il).2
      (if fle (inW.get ⟨iw, hiw⟩).end_
          (Skyline.first_intersection (inW.get ⟨iw, hiw⟩) inL start il).1
        then iw + 1 else iw) := by
  have hww : wfB (inW.get ⟨iw, hiw⟩) = true := all_wfB_get W1 iw hiw
  have hwl : wfB (inL.get ⟨il, hil⟩) = true := all_wfB_get L1 il hil
  have hwe : (inW.get ⟨iw, hiw⟩).end_ ≠ F.nan := (wfB_end hww).1
  have R := fi_spec (inW.get ⟨iw, hiw⟩) inL L1 L2 hww L4 start il hsnan
    (fle_of_flt hsW) (by omega) (fun h => absurd h (by omega)) (fun h2 => hsL)
  set w := inW.get ⟨iw, hiw⟩ with hw
  set ns := (Skyline.first_intersection w inL start il).1 with hns
  set il2 := (Skyline.first_intersection w inL start il).2 with hil2
  have hadv : flt start ns = true := R.strict hil hcon hsW
  have hlastW : iw = inW.length - 1 → w.end_ = F.pinf := by
    intro hlast
    have hne : inW ≠ [] := by intro hn; rw [hn] at hiw; simp at hiw
    have h5 : (⟨iw, hiw⟩ : Fin inW.length) = ⟨inW.length - 1, by omega⟩ :=
      Fin.ext (by simp; omega)
    rw [hw, h5, List.get_length_sub_one]
    exact lastEndInf_getLast W4 _
  constructor
  case adv => exact hadv
  case ne_nan => exact R.ne_nan
  case il2_ge => exact R.mono
  case il2_le => exact R.le_len
  case prevL =>
    intro k hk hklt
    by_cases h2 : k < il
    · exact fle_trans (hprevL k hk h2) (fle_of_flt hadv)
    · exact R.skipped k (by omega) hk hklt
  case nextL => exact R.next
  case infL => exact R.inf_iff
  case iw2_ge =>
    by_cases h : fle w.end_ ns = true
    · rw [if_pos h]; omega
    · rw [if_neg h]
  case iw2_le =>
    by_cases h : fle w.end_ ns = true
    · rw [if_pos h]
      by_cases h2 : iw + 1 ≤ inW.length
      · exact h2
      · exfalso
        have hlast : iw = inW.length - 1 := by omega
        have hp := hlastW hlast
        rw [hp] at h
        have : ns = F.pinf := fle_pinf_left h
        omega
    · rw [if_neg h]
      omega
  case prevW =>
    intro k hk hklt
    by_cases h : fle w.end_ ns = true
    · rw [if_pos h] at hklt
      by_cases h2 : k < iw
      · exact fle_trans (hprevW k hk h2) (fle_of_flt hadv)
      · have hke : k = iw := by omega
        have h5 : (⟨k, hk⟩ : Fin inW.length) = ⟨iw, hiw⟩ := Fin.ext (by simp [hke])
        rw [h5, ← hw]
        exact h
    · rw [if_neg h] at hklt
      exact fle_trans (hprevW k hk hklt) (fle_of_flt hadv)
  case runW =>
    intro hnp
    by_cases h : fle w.end_ ns = true
    · rw [if_pos h]
      by_cases h2 : iw + 1 < inW.length
      · exact h2
      · exfalso
        have hlast : iw = inW.length - 1 := by omega
        exact hnp (fle_pinf_left (by rw [← hlastW hlast]; exact h))
    · rw [if_neg h]; exact hiw
  case nextW =>
    intro h3
    by_cases h : fle w.end_ ns = true
    · have hlt : iw + 1 < inW.length := by rw [if_pos h] at h3; exact h3
      have hidx : (⟨if fle w.end_ ns = true then iw + 1 else iw, h3⟩ : Fin inW.length)
          = ⟨iw + 1, hlt⟩ := Fin.ext (by simp [h])
      rw [hidx]
      have hnse : ns = w.end_ := fle_antisymm R.le_bend h
      rw [hnse, hw]
      exact strictEnds_get_succ W2 iw hlt
    · have hidx : (⟨if fle w.end_ ns = true then iw + 1 else iw, h3⟩ : Fin inW.length)
          = ⟨iw, hiw⟩ := Fin.ext (by simp [h])
      rw [hidx, ← hw]
      have hfe : fle w.end_ ns = false := by
        cases hh : fle w.end_ ns with
        | false => rfl
        | true => exact absurd hh h
      exact (fle_false_iff_flt hwe R.ne_nan).1 hfe
  case infW =>
    intro hp
    by_cases h : fle w.end_ ns = true
    · rw [if_pos h]
      have hwp : w.end_ = F.pinf := fle_pinf_left (by rw [← hp]; exact R.le_bend)
      have := end_pinf_only_last W2 hiw (by rw [← hw]; exact hwp)
      omega
    · exfalso
      rw [hp] at h
      rw [fle_pinf hwe] at h
      exact h rfl
  case le_wend => exact R.le_bend
  case wfw =>
    unfold wfB at hww
    constructor
    · exact (Bool.and_eq_true_iff.1 (Bool.and_eq_true_iff.1 hww).1).1
    · exact (Bool.and_eq_true_iff.1 (Bool.and_eq_true_iff.1 hww).1).2
  case weq =>
    intro q hq1 hq2
    unfold evalSky
    rw [pieceAt_eq_get hiw (fun k hk => hprevW k (by omega) hk) hq1
      (fle_trans hq2 R.le_bend), ← hw]
  case lle =>
    intro q hq1 hq2
    unfold evalSky
    rw [pieceAt_drop hil (fun k hk => hprevL k (by omega) hk) hq1]
    exact R.sem q hq1 hq2
  case noadv2 =>
    intro h2 h3
    have hfle : fle w.end_ ns = false := by
      by_contra hcc
      simp only [Bool.not_eq_false] at hcc
      rw [if_pos hcc] at h3
      omega
    have hflt : flt ns w.end_ = true := (fle_false_iff_flt hwe R.ne_nan).1 hfle
    have hnoadv := R.noadv h2 hil
    have hnix : ns = w.intersection (inL.get ⟨il, hil⟩) := by
      rcases hnoadv with h4 | h4 | h4
      · rw [h4] at hadv; rw [flt_irrefl] at hadv; cases hadv
      · exact h4
      · rw [h4] at hflt; rw [flt_irrefl] at hflt; cases hflt
    rcases cwi_cases hcon with ⟨hm, _⟩ | ⟨_, hix, _⟩ | ⟨hm, hsix, hsh⟩
    · exfalso
      rcases intersection_eq_slope hww hwl hm with h4 | h4
      · rw [← hnix] at h4
        rw [h4, flt_any_ninf_false] at hadv
        cases hadv
      · rw [← hnix] at h4
        rw [h4, flt_pinf_false] at hflt
        cases hflt
    · exfalso
      rw [← hnix] at hix
      exact absurd (flt_of_fle_of_flt hix hadv) (by simp [flt_irrefl])
    · have hnl : flt ns (inL.get ⟨il, hil⟩).end_ = true := by
        have := R.next (by rw [h2]; exact hil)
        have h5 : (⟨il2, by rw [h2]; exact hil⟩ : Fin inL.length) = ⟨il, hil⟩ :=
          Fin.ext (by simp [h2])
        rw [h5] at this
        exact this
      exact ⟨hm, hsh, hnix, hnl, hflt⟩

/-! ### The merge loop invariant -/

/-- Facts about the output chunk built so far: its ends rise strictly from
`-∞` to `ns`, its pieces are well-formed, and up to `ns` it evaluates to the
pointwise maximum of the two inputs. -/
structure OutFacts (in1 in2 out2 : List Building) (ns : F) : Prop where
  chain : List.Chain (fun u v => flt u v = true) F.ninf (out2.map Building.end_)
  lastE : (out2.map Building.end_).getLastD F.ninf = ns
  wfout : ∀ p ∈ out2, fIsFin p.m = true ∧ wfIntercept p.b = true
  nonempty : out2 ≠ []
  sem : ∀ q : ℚ, fle (F.fin q) ns = true →
      evalSky out2 (F.fin q) = fmax (evalSky in1 (F.fin q)) (evalSky in2 (F.fin q))

/-- The merge loop invariant at the top of an iteration. -/
structure MInv (in1 in2 : List Building) (i j : Nat) (start : F)
    (out : List Building) : Prop where
  hi : i < in1.length
  hj : j < in2.length
  snan : start ≠ F.nan
  spinf : start ≠ F.pinf
  hs1 : flt start (in1.get ⟨i, hi⟩).end_ = true
  hs2 : flt start (in2.get ⟨j, hj⟩).end_ = true
  prev1 : ∀ k (hk : k < in1.length), k < i → fle (in1.get ⟨k, hk⟩).end_ start = true
  prev2 : ∀ k (hk : k < in2.length), k < j → fle (in2.get ⟨k, hk⟩).end_ start = true
  chain : List.Chain (fun u v => flt u v = true) F.ninf (out.map Building.end_)
  lastE : (out.map Building.end_).getLastD F.ninf = start
  wfout : ∀ p ∈ out, fIsFin p.m = true ∧ wfIntercept p.b = true
  sem : ∀ q : ℚ, fle (F.fin q) start = true →
      evalSky out (F.fin q) = fmax (evalSky in1 (F.fin q)) (evalSky in2 (F.fin q))

/-- Postcondition of the whole merge loop: both cursors exhausted together,
and the output a well-formed chain to `+∞` computing the pointwise max. -/
structure MPost (in1 in2 : List Building) (res : Nat × Nat × List Building) : Prop where
  icur : res.1 = in1.length
  jcur : res.2.1 = in2.length
  chain : List.Chain (fun u v => flt u v = true) F.ninf (res.2.2.map Building.end_)
  lastinf : (res.2.2.map Building.end_).getLastD F.ninf = F.pinf
  wfout : ∀ p ∈ res.2.2, fIsFin p.m = true ∧ wfIntercept p.b = true
  nonempty : res.2.2 ≠ []
  sem : ∀ q : ℚ, evalSky res.2.2 (F.fin q)
      = fmax (evalSky in1 (F.fin q)) (evalSky in2 (F.fin q))

/-- Appending the winner's chopped piece extends the output facts from
`start` to `ns`. -/
theorem out_extend {in1 in2 out : List Building} {start ns : F} {w : Building}
    (chain : List.Chain (fun u v => flt u v = true) F.ninf (out.map Building.end_))
    (lastE : (out.map Building.end_).getLastD F.ninf = start)
    (wfout : ∀ p ∈ out, fIsFin p.m = true ∧ wfIntercept p.b = true)
    (semOld : ∀ q : ℚ, fle (F.fin q) start = true →
        evalSky out (F.fin q) = fmax (evalSky in1 (F.fin q)) (evalSky in2 (F.fin q)))
    (hadv : flt start ns = true)
    (hwf : fIsFin w.m = true ∧ wfIntercept w.b = true)
    (hsemEq : ∀ q : ℚ, flt start (F.fin q) = true → fle (F.fin q) ns = true →
        fmax (evalSky in1 (F.fin q)) (evalSky in2 (F.fin q))
          = Building.y w (F.fin q)) :
    OutFacts in1 in2 (out ++ [w.chop ns]) ns := by
  have hmap : (out ++ [w.chop ns]).map Building.end_
      = out.map Building.end_ ++ [ns] := by
    rw [List.map_append]; rfl
  constructor
  case chain =>
    rw [hmap]
    exact chain_snoc chain (by rw [lastE]; exact hadv)
  case lastE =>
    rw [hmap]
    exact getLastD_snoc _ _ _
  case wfout =>
    intro p hp
    rcases List.mem_append.1 hp with h2 | h2
    · exact wfout p h2
    · have : p = w.chop ns := by simpa using h2
      subst this
      exact hwf
  case nonempty => simp
  case sem =>
    intro q hq
    by_cases hqs : fle (F.fin q) start = true
    · have hne : out ≠ [] := by
        intro h2
        subst h2
        simp only [List.map_nil, List.getLastD] at lastE
        rw [← lastE] at hqs
        simp [fle] at hqs
      unfold evalSky
      rw [pieceAt_snoc_le hne (by rw [lastE]; exact hqs)]
      exact semOld q hqs
    · have hlt : flt start (F.fin q) = true := by
        have hqs' : fle (F.fin q) start = false := by
          cases hh : fle (F.fin q) start with
          | false => rfl
          | true => exact absurd hh hqs
        exact (fle_false_iff_flt (fun h => by cases h) (flt_ne_nan_left hadv)).1 hqs'
      have hends : ∀ o ∈ out, fle o.end_ start = true := by
        intro o ho
        have := chain_le_getLastD (fun h => by cases h) chain o.end_
          (List.mem_map_of_mem Building.end_ ho)
        rw [lastE] at this
        exact this
      unfold evalSky
      rw [pieceAt_snoc_gt hends hlt, y_chop]
      exact (hsemEq q hlt hq).symm

/-- The `if` branch of one merge iteration, as one step of the loop: the
winner is the current piece of `in1`. -/
theorem step_if (in1 in2 : List Building)
    (A1 : in1.all wfB = true) (A2 : strictEnds in1 = true) (A4 : lastEndInf in1 = true)
    (B1 : in2.all wfB = true) (B2 : strictEnds in2 = true) (B4 : lastEndInf in2 = true)
    (fuel i j : Nat) (start : F) (out : List Building)
    (inv : MInv in1 in2 i j start out)
    (hcon : (in1.get ⟨i, inv.hi⟩).conceals (in2.get ⟨j, inv.hj⟩) start = true) :
    ∃ ns i2 j2 out2,
      Skyline.mergeLoop in1 in2 (fuel + 1) i j start out
        = Skyline.mergeLoop in1 in2 fuel i2 j2 ns out2 ∧
      OutFacts in1 in2 out2 ns ∧
      i ≤ i2 ∧ j ≤ j2 ∧ i2 ≤ in1.length ∧ j2 ≤ in2.length ∧
      ((ns = F.pinf ∧ i2 = in1.length ∧ j2 = in2.length) ∨
       (ns ≠ F.pinf ∧ MInv in1 in2 i2 j2 ns out2 ∧
         (i + j < i2 + j2 ∨
          (i2 = i ∧ j2 = j ∧
            ∀ (hi2 : i < in1.length) (hj2 : j < in2.length),
              feq (in1.get ⟨i, hi2⟩).m (in2.get ⟨j, hj2⟩).m = false ∧
              flt (in1.get ⟨i, hi2⟩).m (in2.get ⟨j, hj2⟩).m = true ∧
              ns = (in1.get ⟨i, hi2⟩).intersection (in2.get ⟨j, hj2⟩) ∧
              flt ns (in2.get ⟨j, hj2⟩).end_ = true ∧
              flt ns (in1.get ⟨i, hi2⟩).end_ = true)))) := by
  have S := merge_step in1 in2 A1 A2 A4 B1 B2 B4 i j start inv.hi inv.hj
    inv.snan inv.hs1 inv.hs2 inv.prev1 inv.prev2 hcon
  refine ⟨(Skyline.first_intersection (in1.get ⟨i, inv.hi⟩) in2 start j).1,
    (if fle (in1.get ⟨i, inv.hi⟩).end_
        (Skyline.first_intersection (in1.get ⟨i, inv.hi⟩) in2 start j).1
      then i + 1 else i),
    (Skyline.first_intersection (in1.get ⟨i, inv.hi⟩) in2 start j).2,
    out ++ [(in1.get ⟨i, inv.hi⟩).chop
      (Skyline.first_intersection (in1.get ⟨i, inv.hi⟩) in2 start j).1],
    ml_eq_if in1 in2 fuel i j start out inv.hi inv.hj hcon, ?_,
    S.iw2_ge, S.il2_ge, S.iw2_le, S.il2_le, ?_⟩
  case _ =>
    exact out_extend inv.chain inv.lastE inv.wfout inv.sem S.adv S.wfw
      (fun q h1 h2 => by rw [S.weq q h1 h2]; exact fmax_eq_left (S.lle q h1 h2))
  case _ =>
    set ns := (Skyline.first_intersection (in1.get ⟨i, inv.hi⟩) in2 start j).1
    set j2 := (Skyline.first_intersection (in1.get ⟨i, inv.hi⟩) in2 start j).2
    set i2 := if fle (in1.get ⟨i, inv.hi⟩).end_ ns then i + 1 else i
    by_cases hp : ns = F.pinf
    · exact Or.inl ⟨hp, S.infW hp, S.infL.1 hp⟩
    · refine Or.inr ⟨hp, ?_, ?_⟩
      · have hjlt : j2 < in2.length := by
          have h1 := S.il2_le
          have h2 : j2 ≠ in2.length := fun he => hp (S.infL.2 he)
          omega
        refine ⟨S.runW hp, hjlt, S.ne_nan, hp, S.nextW _, S.nextL _,
          S.prevW, S.prevL, ?_, ?_, ?_, ?_⟩
        · exact (out_extend inv.chain inv.lastE inv.wfout inv.sem S.adv S.wfw
            (fun q h1 h2 => by
              rw [S.weq q h1 h2]; exact fmax_eq_left (S.lle q h1 h2))).chain
        · exact (out_extend inv.chain inv.lastE inv.wfout inv.sem S.adv S.wfw
            (fun q h1 h2 => by
              rw [S.weq q h1 h2]; exact fmax_eq_left (S.lle q h1 h2))).lastE
        · exact (out_extend inv.chain inv.lastE inv.wfout inv.sem S.adv S.wfw
            (fun q h1 h2 => by
              rw [S.weq q h1 h2]; exact fmax_eq_left (S.lle q h1 h2))).wfout
        · exact (out_extend inv.chain inv.lastE inv.wfout inv.sem S.adv S.wfw
            (fun q h1 h2 => by
              rw [S.weq q h1 h2]; exact fmax_eq_left (S.lle q h1 h2))).sem
      · by_cases hadv : i + j < i2 + j2
        · exact Or.inl hadv
        · have hie : i2 = i ∧ j2 = j := by
            have h1 := S.iw2_ge
            have h2 := S.il2_ge
            omega
          have hn := S.noadv2 hie.2 hie.1
          exact Or.inr ⟨hie.1, hie.2, fun hi2 hj2 => hn⟩

/-- The `else` branch of one merge iteration: the winner is the current
piece of `in2`. -/
theorem step_else (in1 in2 : List Building)
    (A1 : in1.all wfB = true) (A2 : strictEnds in1 = true) (A4 : lastEndInf in1 = true)
    (B1 : in2.all wfB = true) (B2 : strictEnds in2 = true) (B4 : lastEndInf in2 = true)
    (fuel i j : Nat) (start : F) (out : List Building)
    (inv : MInv in1 in2 i j start out)
    (hcf : (in1.get ⟨i, inv.hi⟩).conceals (in2.get ⟨j, inv.hj⟩) start = false)
    (hcon : (in2.get ⟨j, inv.hj⟩).conceals (in1.get ⟨i, inv.hi⟩) start = true) :
    ∃ ns i2 j2 out2,
      Skyline.mergeLoop in1 in2 (fuel + 1) i j start out
        = Skyline.mergeLoop in1 in2 fuel i2 j2 ns out2 ∧
      OutFacts in1 in2 out2 ns ∧
      i ≤ i2 ∧ j ≤ j2 ∧ i2 ≤ in1.length ∧ j2 ≤ in2.length ∧
      ((ns = F.pinf ∧ i2 = in1.length ∧ j2 = in2.length) ∨
       (ns ≠ F.pinf ∧ MInv in1 in2 i2 j2 ns out2 ∧
         (i + j < i2 + j2 ∨
          (i2 = i ∧ j2 = j ∧
            ∀ (hi2 : i < in1.length) (hj2 : j < in2.length),
              feq (in2.get ⟨j, hj2⟩).m (in1.get ⟨i, hi2⟩).m = false ∧
              flt (in2.get ⟨j, hj2⟩).m (in1.get ⟨i, hi2⟩).m = true ∧
              ns = (in2.get ⟨j, hj2⟩).intersection (in1.get ⟨i, hi2⟩) ∧
              flt ns (in1.get ⟨i, hi2⟩).end_ = true ∧
              flt ns (in2.get ⟨j, hj2⟩).end_ = true)))) := by
  have S := merge_step in2 in1 B1 B2 B4 A1 A2 A4 j i start inv.hj inv.hi
    inv.snan inv.hs2 inv.hs1 inv.prev2 inv.prev1 hcon
  refine ⟨(Skyline.first_intersection (in2.get ⟨j, inv.hj⟩) in1 start i).1,
    (Skyline.first_intersection (in2.get ⟨j, inv.hj⟩) in1 start i).2,
    (if fle (in2.get ⟨j, inv.hj⟩).end_
        (Skyline.first_intersection (in2.get ⟨j, inv.hj⟩) in1 start i).1
      then j + 1 else j),
    out ++ [(in2.get ⟨j, inv.hj⟩).chop
      (Skyline.first_intersection (in2.get ⟨j, inv.hj⟩) in1 start i).1],
    ml_eq_else in1 in2 fuel i j start out inv.hi inv.hj hcf, ?_,
    S.il2_ge, S.iw2_ge, S.il2_le, S.iw2_le, ?_⟩
  case _ =>
    exact out_extend inv.chain inv.lastE inv.wfout inv.sem S.adv S.wfw
      (fun q h1 h2 => by rw [S.weq q h1 h2]; exact fmax_eq_right (S.lle q h1 h2))
  case _ =>
    set ns := (Skyline.first_intersection (in2.get ⟨j, inv.hj⟩) in1 start i).1
    set i2 := (Skyline.first_intersection (in2.get ⟨j, inv.hj⟩) in1 start i).2
    set j2 := if fle (in2.get ⟨j, inv.hj⟩).end_ ns then j + 1 else j
    by_cases hp : ns = F.pinf
    · exact Or.inl ⟨hp, S.infL.1 hp, S.infW hp⟩
    · refine Or.inr ⟨hp, ?_, ?_⟩
      · have hilt : i2 < in1.length := by
          have h1 := S.il2_le
          have h2 : i2 ≠ in1.length := fun he => hp (S.infL.2 he)
          omega
        refine ⟨hilt, S.runW hp, S.ne_nan, hp, S.nextL _, S.nextW _,
          S.prevL, S.prevW, ?_, ?_, ?_, ?_⟩
        · exact (out_extend inv.chain inv.lastE inv.wfout inv.sem S.adv S.wfw
            (fun q h1 h2 => by
              rw [S.weq q h1 h2]; exact fmax_eq_right (S.lle q h1 h2))).chain
        · exact (out_extend inv.chain inv.lastE inv.wfout inv.sem S.adv S.wfw
            (fun q h1 h2 => by
              rw [S.weq q h1 h2]; exact fmax_eq_right (S.lle q h1 h2))).lastE
        · exact (out_extend inv.chain inv.lastE inv.wfout inv.sem S.adv S.wfw
            (fun q h1 h2 => by
              rw [S.weq q h1 h2]; exact fmax_eq_right (S.lle q h1 h2))).wfout
        · exact (out_extend inv.chain inv.lastE inv.wfout inv.sem S.adv S.wfw
            (fun q h1 h2 => by
              rw [S.weq q h1 h2]; exact fmax_eq_right (S.lle q h1 h2))).sem
      · by_cases hadv : i + j < i2 + j2
        · exact Or.inl hadv
        · have hie : i2 = i ∧ j2 = j := by
            have h1 := S.iw2_ge
            have h2 := S.il2_ge
            omega
          have hn := S.noadv2 hie.1 hie.2
          exact Or.inr ⟨hie.1, hie.2, fun hi2 hj2 => hn⟩

theorem mpost_of_outfacts {in1 in2 out2 : List Building} {ns : F}
    (hof : OutFacts in1 in2 out2 ns) (hp : ns = F.pinf) :
    MPost in1 in2 (in1.length, in2.length, out2) :=
  ⟨rfl, rfl, hof.chain, by rw [hof.lastE, hp], hof.wfout, hof.nonempty,
    fun q => hof.sem q (by rw [hp]; exact fle_pinf (fun h => by cases h))⟩

/-- Just after an interior crossing, the piece that won no longer conceals
the other one. -/
theorem conceals_at_crossing_false {b c : Building} {ns : F}
    (hm : feq b.m c.m = false) (hlt : flt b.m c.m = true)
    (hix : ns = b.intersection c) :
    b.conceals c ns = false := by
  unfold Building.conceals Building.conceals_with_intersect
  rw [if_neg (by simp [hm]), ← hix]
  simp [flt_irrefl, flt_asymm hlt]

/-- Just after an interior crossing, the steeper piece conceals the one that
won before the crossing. -/
theorem conceals_at_crossing_true {b c : Building} {ns : F}
    (hmb : b.m ≠ F.nan) (hmc : c.m ≠ F.nan) (hns : ns ≠ F.nan)
    (hm : feq c.m b.m = false) (hlt : flt c.m b.m = true)
    (hix : ns = c.intersection b) :
    b.conceals c ns = true := by
  have hm2 : feq b.m c.m = false := by rw [feq_symm]; exact hm
  unfold Building.conceals Building.conceals_with_intersect
  rw [if_neg (by simp [hm2]), ← intersection_symm hmb hmc hm2, ← hix]
  simp [fle_refl hns, hlt]

/-- The merge loop, run with enough fuel from a state satisfying the
invariant, stops with both cursors exhausted and a well-formed pointwise-max
output.  Fuel accounting: every iteration either advances a cursor, or is a
strict interior crossing, in which case the very next iteration advances a
cursor — so `2·(remaining cursor distance) + 1` fuel always suffices. -/
theorem mergeLoop_post (in1 in2 : List Building)
    (A1 : in1.all wfB = true) (A2 : strictEnds in1 = true) (A4 : lastEndInf in1 = true)
    (B1 : in2.all wfB = true) (B2 : strictEnds in2 = true) (B4 : lastEndInf in2 = true) :
    ∀ fuel i j start out, MInv in1 in2 i j start out →
      2 * ((in1.length - i) + (in2.length - j)) + 1 ≤ fuel →
      MPost in1 in2 (Skyline.mergeLoop in1 in2 fuel i j start out) := by
  intro fuel
  induction fuel using Nat.strong_induction_on with
  | _ fuel IH =>
    intro i j start out inv hfuel
    have hi := inv.hi
    have hj := inv.hj
    have hw1 : wfB (in1.get ⟨i, inv.hi⟩) = true := all_wfB_get A1 i inv.hi
    have hw2 : wfB (in2.get ⟨j, inv.hj⟩) = true := all_wfB_get B1 j inv.hj
    obtain ⟨f, rfl⟩ : ∃ f, fuel = f + 1 := ⟨fuel - 1, by omega⟩
    by_cases hcon : (in1.get ⟨i, inv.hi⟩).conceals (in2.get ⟨j, inv.hj⟩) start = true
    · obtain ⟨ns, i2, j2, out2, heq, hof, hii, hjj, hile, hjle, hcase⟩ :=
        step_if in1 in2 A1 A2 A4 B1 B2 B4 f i j start out inv hcon
      rw [heq]
      rcases hcase with ⟨hp, hieq, hjeq⟩ | ⟨hp, inv2, hadv⟩
      · rw [ml_done _ _ _ _ _ _ _ (by intro hcc; omega)]
        rw [hieq, hjeq]
        exact mpost_of_outfacts hof hp
      · rcases hadv with hsum | ⟨hie, hje, hnad⟩
        · exact IH f (by omega) i2 j2 ns out2 inv2 (by omega)
        · have hi2 : i < in1.length := by rw [← hie]; exact inv2.hi
          have hj2 : j < in2.length := by rw [← hje]; exact inv2.hj
          have inv3 : MInv in1 in2 i j ns out2 := by
            rw [← hie, ← hje]; exact inv2
          have hnd := hnad hi2 hj2
          have hc2f : (in1.get ⟨i, hi2⟩).conceals (in2.get ⟨j, hj2⟩) ns = false :=
            conceals_at_crossing_false hnd.1 hnd.2.1 hnd.2.2.1
          have hc2t : (in2.get ⟨j, hj2⟩).conceals (in1.get ⟨i, hi2⟩) ns = true :=
            conceals_at_crossing_true (wfB_m_ne_nan hw2) (wfB_m_ne_nan hw1)
              inv3.snan hnd.1 hnd.2.1 hnd.2.2.1
          obtain ⟨f2, rfl⟩ : ∃ f2, f = f2 + 1 := ⟨f - 1, by omega⟩
          rw [hie, hje] at heq ⊢
          obtain ⟨ns2, i3, j3, out3, heq2, hof2, hii2, hjj2, hile2, hjle2, hcase2⟩ :=
            step_else in1 in2 A1 A2 A4 B1 B2 B4 f2 i j ns out2 inv3 hc2f hc2t
          rw [heq2]
          rcases hcase2 with ⟨hp2, hieq2, hjeq2⟩ | ⟨hp2, inv4, hadv2⟩
          · rw [ml_done _ _ _ _ _ _ _ (by intro hcc; omega)]
            rw [hieq2, hjeq2]
            exact mpost_of_outfacts hof2 hp2
          · rcases hadv2 with hsum2 | ⟨hie2, hje2, hnad2⟩
            · exact IH f2 (by omega) i3 j3 ns2 out3 inv4 (by omega)
            · exfalso
              have hnd2 := hnad2 hi2 hj2
              have := flt_asymm hnd.2.1
              rw [hnd2.2.1] at this
              cases this
    · have hcf : (in1.get ⟨i, inv.hi⟩).conceals (in2.get ⟨j, inv.hj⟩) start
          = false := by
        cases hh : (in1.get ⟨i, inv.hi⟩).conceals (in2.get ⟨j, inv.hj⟩) start with
        | false => rfl
        | true => exact absurd hh hcon
      have hct : (in2.get ⟨j, inv.hj⟩).conceals (in1.get ⟨i, inv.hi⟩) start
          = true := by
        rcases conceals_total (in1.get ⟨i, inv.hi⟩) (in2.get ⟨j, inv.hj⟩) start
          (wfB_m_ne_nan hw1) (wfB_b hw1).1 (wfB_end hw1).1
          (wfB_m_ne_nan hw2) (wfB_b hw2).1 (wfB_end hw2).1 inv.snan with h2 | h2
        · exact absurd h2 hcon
        · exact h2
      obtain ⟨ns, i2, j2, out2, heq, hof, hii, hjj, hile, hjle, hcase⟩ :=
        step_else in1 in2 A1 A2 A4 B1 B2 B4 f i j start out inv hcf hct
      rw [heq]
      rcases hcase with ⟨hp, hieq, hjeq⟩ | ⟨hp, inv2, hadv⟩
      · rw [ml_done _ _ _ _ _ _ _ (by intro hcc; omega)]
        rw [hieq, hjeq]
        exact mpost_of_outfacts hof hp
      · rcases hadv with hsum | ⟨hie, hje, hnad⟩
        · exact IH f (by omega) i2 j2 ns out2 inv2 (by omega)
        · have hi2 : i < in1.length := by rw [← hie]; exact inv2.hi
          have hj2 : j < in2.length := by rw [← hje]; exact inv2.hj
          have inv3 : MInv in1 in2 i j ns out2 := by
            rw [← hie, ← hje]; exact inv2
          have hnd := hnad hi2 hj2
          have hc3 : (in1.get ⟨i, hi2⟩).conceals (in2.get ⟨j, hj2⟩) ns = true :=
            conceals_at_crossing_true (wfB_m_ne_nan hw1) (wfB_m_ne_nan hw2)
              inv3.snan hnd.1 hnd.2.1 hnd.2.2.1
          obtain ⟨f2, rfl⟩ : ∃ f2, f = f2 + 1 := ⟨f - 1, by omega⟩
          rw [hie, hje] at heq ⊢
          obtain ⟨ns2, i3, j3, out3, heq2, hof2, hii2, hjj2, hile2, hjle2, hcase2⟩ :=
            step_if in1 in2 A1 A2 A4 B1 B2 B4 f2 i j ns out2 inv3 hc3
          rw [heq2]
          rcases hcase2 with ⟨hp2, hieq2, hjeq2⟩ | ⟨hp2, inv4, hadv2⟩
          · rw [ml_done _ _ _ _ _ _ _ (by intro hcc; omega)]
            rw [hieq2, hjeq2]
            exact mpost_of_outfacts hof2 hp2
          · rcases hadv2 with hsum2 | ⟨hie2, hje2, hnad2⟩
            · exact IH f2 (by omega) i3 j3 ns2 out3 inv4 (by omega)
            · exfalso
              have hnd2 := hnad2 hi2 hj2
              have := flt_asymm hnd.2.1
              rw [hnd2.2.1] at this
              cases this

/-- C9: for buildings with no `NaN` field and a non-`NaN` sweep position `x`,
at least one of the two `conceals` tests succeeds, so the merge sweep always
has a winner. -/
theorem c9_conceals_total (b1 b2 : Building) (x : F)
    (hm1 : b1.m ≠ F.nan) (hb1 : b1.b ≠ F.nan) (he1 : b1.end_ ≠ F.nan)
    (hm2 : b2.m ≠ F.nan) (hb2 : b2.b ≠ F.nan) (he2 : b2.end_ ≠ F.nan)
    (hx : x ≠ F.nan) :
    b1.conceals b2 x = true ∨ b2.conceals b1 x = true :=
  conceals_total b1 b2 x hm1 hb1 he1 hm2 hb2 he2 hx

/-- C9 witness: concrete buildings with slopes 1 and 0, intercepts 0, at
`x = 0`. -/
theorem c9_witness :
    Building.conceals ⟨F.fin 1, F.fin 0, F.pinf⟩ ⟨F.fin 0, F.fin 0, F.pinf⟩ (F.fin 0) = true ∨
    Building.conceals ⟨F.fin 0, F.fin 0, F.pinf⟩ ⟨F.fin 1, F.fin 0, F.pinf⟩ (F.fin 0) = true :=
  c9_conceals_total ⟨F.fin 1, F.fin 0, F.pinf⟩ ⟨F.fin 0, F.fin 0, F.pinf⟩ (F.fin 0)
    (by decide) (by decide) (by decide) (by decide) (by decide) (by decide) (by decide)


/-! ### From the loop postcondition to the claims about `merge` -/

theorem flt_ninf_of {a : F} (h1 : a ≠ F.nan) (h2 : a ≠ F.ninf) :
    flt F.ninf a = true := by
  cases a <;> simp_all [flt]

theorem wfEnd_of {e : F} (h1 : e ≠ F.nan) (h2 : e ≠ F.ninf) : wfEnd e = true := by
  cases e <;> simp_all [wfEnd]

theorem chain_end_ne_ninf {l : List F} {a : F}
    (h : List.Chain (fun u v => flt u v = true) a l) (x : F) (hx : x ∈ l) :
    x ≠ F.ninf := by
  induction l generalizing a with
  | nil => cases hx
  | cons b t ih =>
      rcases h with _ | ⟨hab, hbt⟩
      rcases List.mem_cons.1 hx with h2 | h2
      · subst h2
        intro hc
        rw [hc, flt_any_ninf_false] at hab
        cases hab
      · exact ih hbt h2

theorem strictEnds_of_chain {bs : List Building} {a : F}
    (h : List.Chain (fun u v => flt u v = true) a (bs.map Building.end_)) :
    strictEnds bs = true := by
  induction bs generalizing a with
  | nil => rfl
  | cons p t ih =>
      cases t with
      | nil => rfl
      | cons q t2 =>
          rcases h with _ | ⟨hab, hbt⟩
          rcases hbt with _ | ⟨hpq, hqt⟩
          unfold strictEnds
          rw [hpq, ih (List.Chain.cons hpq hqt)]
          rfl

theorem getLastD_irrel {l : List F} (hne : l ≠ []) (d d2 : F) :
    l.getLastD d = l.getLastD d2 := by
  cases l with
  | nil => exact absurd rfl hne
  | cons x t =>
      rw [List.getLastD_cons, List.getLastD_cons]

theorem lastEndInf_of {bs : List Building} (hne : bs ≠ [])
    (h : (bs.map Building.end_).getLastD F.ninf = F.pinf) :
    lastEndInf bs = true := by
  induction bs with
  | nil => exact absurd rfl hne
  | cons p t ih =>
      cases t with
      | nil =>
          have h2 : p.end_ = F.pinf := by
            simpa [List.getLastD] using h
          simp [lastEndInf, h2]
      | cons q t2 =>
          unfold lastEndInf
          apply ih (by simp)
          rw [List.map, List.getLastD_cons] at h
          rw [← h]
          exact getLastD_irrel (by simp) _ _

theorem wfSky_parts {bs : List Building} (h : wfSky bs = true) :
    bs ≠ [] ∧ bs.all wfB = true ∧ strictEnds bs = true ∧ lastEndInf bs = true := by
  unfold wfSky at h
  have h1 := (Bool.and_eq_true_iff.1 h).2
  have h2 := (Bool.and_eq_true_iff.1 (Bool.and_eq_true_iff.1 h).1).2
  have h3 := (Bool.and_eq_true_iff.1
    (Bool.and_eq_true_iff.1 (Bool.and_eq_true_iff.1 h).1).1).2
  have h0 := (Bool.and_eq_true_iff.1
    (Bool.and_eq_true_iff.1 (Bool.and_eq_true_iff.1 h).1).1).1
  refine ⟨?_, h3, h2, h1⟩
  intro hc
  rw [hc] at h0
  simp at h0

theorem minv_init {in1 in2 : List Building} (hA : wfSky in1 = true)
    (hB : wfSky in2 = true) : MInv in1 in2 0 0 F.ninf [] := by
  obtain ⟨hA0, hA1, hA2, hA4⟩ := wfSky_parts hA
  obtain ⟨hB0, hB1, hB2, hB4⟩ := wfSky_parts hB
  have hi : 0 < in1.length := List.length_pos.2 hA0
  have hj : 0 < in2.length := List.length_pos.2 hB0
  have hw1 := all_wfB_get hA1 0 hi
  have hw2 := all_wfB_get hB1 0 hj
  refine ⟨hi, hj, (fun h => by cases h), (fun h => by cases h),
    flt_ninf_of (wfB_end hw1).1 (wfB_end hw1).2,
    flt_ninf_of (wfB_end hw2).1 (wfB_end hw2).2,
    ?_, ?_, List.Chain.nil, rfl, ?_, ?_⟩
  · intro k hk hk0; omega
  · intro k hk hk0; omega
  · intro p hp; cases hp
  · intro q hq
    simp [fle] at hq

theorem merge_mpost {in1 in2 : List Building} (hA : wfSky in1 = true)
    (hB : wfSky in2 = true) :
    MPost in1 in2
      (Skyline.mergeLoop in1 in2 (Skyline.mergeFuel in1 in2) 0 0 F.ninf []) := by
  obtain ⟨hA0, hA1, hA2, hA4⟩ := wfSky_parts hA
  obtain ⟨hB0, hB1, hB2, hB4⟩ := wfSky_parts hB
  exact mergeLoop_post in1 in2 hA1 hA2 hA4 hB1 hB2 hB4
    (Skyline.mergeFuel in1 in2) 0 0 F.ninf [] (minv_init hA hB)
    (by unfold Skyline.mergeFuel; omega)

theorem wfSky_of_mpost {in1 in2 : List Building} {res : Nat × Nat × List Building}
    (h : MPost in1 in2 res) : wfSky res.2.2 = true := by
  unfold wfSky
  have h0 : res.2.2.isEmpty = false := by
    cases hh : res.2.2 with
    | nil => exact absurd hh h.nonempty
    | cons p t => rfl
  have hall : res.2.2.all wfB = true := by
    rw [List.all_eq_true]
    intro p hp
    have hw := h.wfout p hp
    have hend : wfEnd p.end_ = true := by
      have hmem : p.end_ ∈ res.2.2.map Building.end_ :=
        List.mem_map_of_mem Building.end_ hp
      exact wfEnd_of (chain_end_ne_nan h.chain p.end_ hmem)
        (chain_end_ne_ninf h.chain p.end_ hmem)
    unfold wfB
    rw [hw.1, hw.2, hend]
    rfl
  rw [h0, hall, strictEnds_of_chain h.chain, lastEndInf_of h.nonempty h.lastinf]
  rfl

/-- C1: merging two well-formed skylines of the same direction produces a
skyline whose value at every real `x` is the maximum of the two inputs'
values at `x`. -/
theorem c1_merge_pointwise_max (A B : Skyline) (hA : wfSky A = true)
    (hB : wfSky B = true) (q : ℚ) :
    evalSky (Skyline.merge A B) (F.fin q)
      = fmax (evalSky A (F.fin q)) (evalSky B (F.fin q)) :=
  (merge_mpost hA hB).sem q

/-- C1 witness: the two skylines of the repository's own merge test,
evaluated at `x = 3/2`. -/
theorem c1_witness :
    evalSky (Skyline.merge
        (Skyline.single Direction.Up (F.fin (-2)) (F.fin 0) (F.fin (-1)) (F.fin 0))
        (Skyline.single Direction.Up (F.fin 1) (F.fin 0) (F.fin 2) (F.fin 0)))
      (F.fin (3/2))
      = fmax
        (evalSky (Skyline.single Direction.Up (F.fin (-2)) (F.fin 0) (F.fin (-1)) (F.fin 0)) (F.fin (3/2)))
        (evalSky (Skyline.single Direction.Up (F.fin 1) (F.fin 0) (F.fin 2) (F.fin 0)) (F.fin (3/2))) :=
  c1_merge_pointwise_max _ _
    (by norm_num [wfSky, Skyline.single, Direction.direction_multiplier, fmul_fin,
      from_points_slant, Building.empty, wfB, fIsFin, wfIntercept, wfEnd,
      strictEnds, lastEndInf, fmin_fin, flt, flt_fin, List.all])
    (by norm_num [wfSky, Skyline.single, Direction.direction_multiplier, fmul_fin,
      from_points_slant, Building.empty, wfB, fIsFin, wfIntercept, wfEnd,
      strictEnds, lastEndInf, fmin_fin, flt, flt_fin, List.all])
    (3/2)

/-- C3 (amended): `empty()` and `merge` of well-formed skylines produce
ordered sequences with strictly increasing ends terminated by `+∞`, and so
does `single` whenever `x1 ≠ x2`; for a vertical segment (`x1 = x2`) the
middle piece of `single` is a zero-width piece whose end equals its
predecessor's end, so the ends are only weakly increasing there. -/
theorem c3_wf_construction :
    wfSky Skyline.empty = true ∧
    (∀ (d : Direction) (x1 y1 x2 y2 : ℚ), x1 ≠ x2 →
      wfSky (Skyline.single d (F.fin x1) (F.fin y1) (F.fin x2) (F.fin y2)) = true) ∧
    (∀ A B : Skyline, wfSky A = true → wfSky B = true →
      wfSky (Skyline.merge A B) = true) := by
  refine ⟨?_, ?_, ?_⟩
  · norm_num [wfSky, Skyline.empty, Building.empty, wfB, fIsFin, wfIntercept,
      wfEnd, strictEnds, lastEndInf, List.all]
  · intro d x1 y1 x2 y2 hx
    have hmm : min x1 x2 < max x1 x2 := min_lt_max.2 hx
    cases d <;>
      simp only [Skyline.single, Direction.direction_multiplier, fmul_fin] <;>
      rw [from_points_slant _ _ _ _ hx] <;>
      norm_num [wfSky, Building.empty, wfB, fIsFin, wfIntercept, wfEnd,
        strictEnds, lastEndInf, fmin_fin, flt, flt_fin, List.all, hmm]
  · intro A B hA hB
    exact wfSky_of_mpost (merge_mpost hA hB)

/-- C3 witness: the merge clause applied to `empty()` and `empty()`, with
well-formedness of `empty()` itself discharged by computation. -/
theorem c3_witness : wfSky (Skyline.merge Skyline.empty Skyline.empty) = true :=
  c3_wf_construction.2.2 Skyline.empty Skyline.empty
    (by norm_num [wfSky, Skyline.empty, Building.empty, wfB, fIsFin, wfIntercept,
      wfEnd, strictEnds, lastEndInf, List.all])
    (by norm_num [wfSky, Skyline.empty, Building.empty, wfB, fIsFin, wfIntercept,
      wfEnd, strictEnds, lastEndInf, List.all])

/-- C6: during a merge of well-formed skylines no zero-width piece is ever
emitted — the sweep position starts at `-∞` and every emitted piece's end is
strictly above the sweep position at which it was pushed, so the output ends
form a strictly increasing chain above `-∞`. -/
theorem c6_no_zero_width (A B : Skyline) (hA : wfSky A = true)
    (hB : wfSky B = true) :
    List.Chain (fun u v => flt u v = true) F.ninf
      ((Skyline.internal_merge A B).map Building.end_) :=
  (merge_mpost hA hB).chain

/-- C6 witness: the chain property for the merge of the repository test's
two skylines. -/
theorem c6_witness :
    List.Chain (fun u v => flt u v = true) F.ninf
      ((Skyline.internal_merge
          (Skyline.single Direction.Up (F.fin (-2)) (F.fin 0) (F.fin (-1)) (F.fin 0))
          (Skyline.single Direction.Up (F.fin 1) (F.fin 0) (F.fin 2) (F.fin 0))).map
        Building.end_) :=
  c6_no_zero_width _ _
    (by norm_num [wfSky, Skyline.single, Direction.direction_multiplier, fmul_fin,
      from_points_slant, Building.empty, wfB, fIsFin, wfIntercept, wfEnd,
      strictEnds, lastEndInf, fmin_fin, flt, flt_fin, List.all])
    (by norm_num [wfSky, Skyline.single, Direction.direction_multiplier, fmul_fin,
      from_points_slant, Building.empty, wfB, fIsFin, wfIntercept, wfEnd,
      strictEnds, lastEndInf, fmin_fin, flt, flt_fin, List.all])

/-- C7: on well-formed inputs the merge loop stops with both cursors just
past their final (infinite) pieces simultaneously — when one cursor reaches
the end of its sequence the other does too, so no input piece is truncated
or duplicated. -/
theorem c7_cursors_exhaust (A B : Skyline) (hA : wfSky A = true)
    (hB : wfSky B = true) :
    (Skyline.mergeLoop A B (Skyline.mergeFuel A B) 0 0 F.ninf []).1 = A.length ∧
    (Skyline.mergeLoop A B (Skyline.mergeFuel A B) 0 0 F.ninf []).2.1 = B.length :=
  ⟨(merge_mpost hA hB).icur, (merge_mpost hA hB).jcur⟩

/-- C7 witness: both cursors exhaust on the merge of `empty()` with
`empty()`. -/
theorem c7_witness :
    (Skyline.mergeLoop Skyline.empty Skyline.empty
        (Skyline.mergeFuel Skyline.empty Skyline.empty) 0 0 F.ninf []).1
      = Skyline.empty.length ∧
    (Skyline.mergeLoop Skyline.empty Skyline.empty
        (Skyline.mergeFuel Skyline.empty Skyline.empty) 0 0 F.ninf []).2.1
      = Skyline.empty.length :=
  c7_cursors_exhaust Skyline.empty Skyline.empty
    (by norm_num [wfSky, Skyline.empty, Building.empty, wfB, fIsFin, wfIntercept,
      wfEnd, strictEnds, lastEndInf, List.all])
    (by norm_num [wfSky, Skyline.empty, Building.empty, wfB, fIsFin, wfIntercept,
      wfEnd, strictEnds, lastEndInf, List.all])


/-! ### The overlap sweep: auxiliary notions

The amended C2 speaks of skylines whose first and last pieces are empty
(`intercept = -∞`, as every skyline built by the API has) and which share no
finite end value. -/

def fIsNinf : F → Bool
  | F.ninf => true
  | _ => false

/-- First and last piece have intercept `-∞`. -/
def edgesEmpty : List Building → Bool
  | [] => false
  | p :: rest => fIsNinf p.b && fIsNinf (rest.getLastD p).b

/-- The two skylines share no end value other than `+∞`. -/
def endsDisjoint (A B : List Building) : Bool :=
  A.all fun p => B.all fun r =>
    !(decide (p.end_ = r.end_)) || decide (p.end_ = F.pinf)

theorem endsDisjoint_spec {A B : List Building} (h : endsDisjoint A B = true)
    {p r : Building} (hp : p ∈ A) (hr : r ∈ B) (he : p.end_ = r.end_) :
    p.end_ = F.pinf := by
  unfold endsDisjoint at h
  rw [List.all_eq_true] at h
  have h2 := h p hp
  rw [List.all_eq_true] at h2
  have h3 := h2 r hr
  rcases Bool.or_eq_true_iff.1 h3 with h4 | h4
  · exfalso
    rw [he] at h4
    simp at h4
  · simpa using h4

theorem edgesEmpty_head {bs : List Building} (h : edgesEmpty bs = true)
    (hl : 0 < bs.length) : (bs.get ⟨0, hl⟩).b = F.ninf := by
  cases bs with
  | nil => simp at hl
  | cons p rest =>
      unfold edgesEmpty at h
      have := (Bool.and_eq_true_iff.1 h).1
      cases hb : p.b <;> rw [hb] at this <;> simp_all [fIsNinf]

theorem edgesEmpty_last {bs : List Building} (h : edgesEmpty bs = true)
    (hne : bs ≠ []) : (bs.getLast hne).b = F.ninf := by
  cases bs with
  | nil => exact absurd rfl hne
  | cons p rest =>
      unfold edgesEmpty at h
      have h2 := (Bool.and_eq_true_iff.1 h).2
      have h3 : (p :: rest).getLast hne = rest.getLastD p := by
        cases rest with
        | nil => rfl
        | cons q t =>
            rw [List.getLast_cons (List.cons_ne_nil q t),
              List.getLastD_eq_getLast?, List.getLast?_eq_getLast (q :: t) (List.cons_ne_nil q t)]
            rfl
      rw [h3]
      cases hb : (rest.getLastD p).b <;> rw [hb] at h2 <;> simp_all [fIsNinf]

theorem fmax_ne_nan2 {a b : F} (hb : b ≠ F.nan) : fmax a b ≠ F.nan := by
  unfold fmax
  have h2 : fisNaN b = false := by cases b <;> simp_all [fisNaN]
  by_cases h1 : fisNaN a = true
  · simp [h1, hb]
  · have h1f : fisNaN a = false := by simp_all
    have ha : a ≠ F.nan := by cases a <;> simp_all [fisNaN]
    by_cases h3 : flt a b = true <;> simp_all

theorem flt_fle_fmin {s a b : F} (h1 : flt s a = true) (h2 : flt s b = true) :
    flt s (fmin a b) = true := by
  rcases fle_total (flt_ne_nan_right h1) (flt_ne_nan_right h2) with h | h
  · rw [fmin_eq_left h]; exact h1
  · rw [fmin_eq_right h]; exact h2

/-- A linear function bounded by `uq` on an open interval to the right of
`sq` is bounded by `uq` at `sq` itself. -/
theorem line_left_limit_le {k c uq sq mq : ℚ} (hlt : sq < mq)
    (hU : ∀ q : ℚ, sq < q → q < mq → k * q + c ≤ uq) : k * sq + c ≤ uq := by
  by_contra hc
  push_neg at hc
  set d := k * sq + c - uq with hd
  have hdpos : 0 < d := by rw [hd]; linarith
  have hkpos : 0 < |k| + 1 := by positivity
  set e1 := (mq - sq) / 2 with he1
  set e2 := d / (2 * (|k| + 1)) with he2
  have he1pos : 0 < e1 := by rw [he1]; linarith
  have he2pos : 0 < e2 := by rw [he2]; positivity
  set q0 := sq + min e1 e2 with hq0
  have hq0gt : sq < q0 := by
    rw [hq0]
    have := lt_min he1pos he2pos
    linarith
  have hq0lt : q0 < mq := by
    rw [hq0]
    have h5 : min e1 e2 ≤ e1 := min_le_left _ _
    rw [he1] at h5
    linarith
  have hUq := hU q0 hq0gt hq0lt
  have habs : k * (q0 - sq) ≥ -(|k| * (q0 - sq)) := by
    have h6 : -|k| ≤ k := neg_abs_le k
    nlinarith [hq0gt]
  have hsmall : |k| * (q0 - sq) ≤ d / 2 := by
    have h7 : q0 - sq ≤ e2 := by
      rw [hq0]
      have := min_le_right e1 e2
      linarith
    have h8 : |k| * (q0 - sq) ≤ |k| * e2 := by
      apply mul_le_mul_of_nonneg_left h7 (abs_nonneg k)
    have h9 : |k| * e2 ≤ d / 2 := by
      rw [he2, mul_div_assoc']
      rw [div_le_div_iff (by positivity) (by norm_num)]
      nlinarith [abs_nonneg k, hdpos]
    linarith
  have hge : k * q0 + c ≥ k * sq + c - d / 2 := by nlinarith
  rw [hd] at hge
  have h12 : k * sq + c - (k * sq + c - uq) / 2 ≤ uq := le_trans hge hUq
  linarith [h12, hc]


/-! ### Pointwise sums of two pieces -/

theorem fle_ninf_right {a : F} (h : fle a F.ninf = true) : a = F.ninf := by
  cases a <;> simp_all [fle]

theorem y_of_ninf_intercept {p : Building} (h : p.b = F.ninf) (x : F) :
    Building.y p x = F.ninf := by
  unfold Building.y
  rw [h]
  simp [fisInfinite]

theorem y_fin_of_not_ninf {p : Building} (h : wfB p = true) (q : ℚ)
    (hb : Building.y p (F.fin q) ≠ F.ninf) :
    ∃ bq, p.b = F.fin bq := by
  unfold wfB wfIntercept at h
  cases hbp : p.b with
  | ninf => exact absurd (y_of_ninf_intercept hbp _) hb
  | fin bq => exact ⟨bq, rfl⟩
  | nan => rw [hbp] at h; simp at h
  | pinf => rw [hbp] at h; simp at h

/-- The pointwise sum of two well-formed pieces at a finite point is `-∞` or
finite. -/
theorem sum_y_shape {b1 b2 : Building} (h1 : wfB b1 = true) (h2 : wfB b2 = true)
    (q : ℚ) :
    fadd (Building.y b1 (F.fin q)) (Building.y b2 (F.fin q)) = F.ninf ∨
      ∃ r, fadd (Building.y b1 (F.fin q)) (Building.y b2 (F.fin q)) = F.fin r := by
  rcases y_fin_shape h1 q with ha | ⟨r1, ha⟩ <;>
    rcases y_fin_shape h2 q with hb | ⟨r2, hb⟩ <;> rw [ha, hb]
  · left; rfl
  · left; rfl
  · left; rfl
  · right; exact ⟨r1 + r2, rfl⟩

theorem sum_y_ne_nan {b1 b2 : Building} (h1 : wfB b1 = true) (h2 : wfB b2 = true)
    (q : ℚ) :
    fadd (Building.y b1 (F.fin q)) (Building.y b2 (F.fin q)) ≠ F.nan := by
  rcases sum_y_shape h1 h2 q with h | ⟨r, h⟩ <;> rw [h] <;> intro hc <;> cases hc

/-- If the pointwise sum at a finite point is finite, both intercepts are
finite, and the sum is the sum line evaluated there. -/
theorem sum_y_fin_line {b1 b2 : Building} (h1 : wfB b1 = true) (h2 : wfB b2 = true)
    {q r : ℚ}
    (h : fadd (Building.y b1 (F.fin q)) (Building.y b2 (F.fin q)) = F.fin r) :
    ∃ m1 bq1 m2 bq2, b1.m = F.fin m1 ∧ b1.b = F.fin bq1 ∧ b2.m = F.fin m2 ∧
      b2.b = F.fin bq2 ∧ r = (m1 * q + bq1) + (m2 * q + bq2) := by
  obtain ⟨m1, hm1⟩ := wfB_m h1
  obtain ⟨m2, hm2⟩ := wfB_m h2
  have hy1 : Building.y b1 (F.fin q) ≠ F.ninf := by
    intro hc
    rcases y_fin_shape h2 q with hb | ⟨r2, hb⟩ <;> rw [hc, hb] at h <;> cases h
  have hy2 : Building.y b2 (F.fin q) ≠ F.ninf := by
    intro hc
    rcases y_fin_shape h1 q with hb | ⟨r1, hb⟩ <;> rw [hc, hb] at h <;> cases h
  obtain ⟨bq1, hb1⟩ := y_fin_of_not_ninf h1 q hy1
  obtain ⟨bq2, hb2⟩ := y_fin_of_not_ninf h2 q hy2
  refine ⟨m1, bq1, m2, bq2, hm1, hb1, hm2, hb2, ?_⟩
  rw [y_fin m1 bq1 q hm1 hb1, y_fin m2 bq2 q hm2 hb2, fadd_fin] at h
  cases h
  rfl

/-- On an interval `[sq, eq]` the pointwise sum of two pieces is at most the
larger of its values at the two endpoints (linearity: the maximum of a linear
function on an interval is attained at an endpoint). -/
theorem sum_convex {b1 b2 : Building} (h1 : wfB b1 = true) (h2 : wfB b2 = true)
    {sq eq q : ℚ} (hsq : sq ≤ q) (hqe : q ≤ eq) :
    fle (fadd (Building.y b1 (F.fin q)) (Building.y b2 (F.fin q)))
      (fmax (fadd (Building.y b1 (F.fin sq)) (Building.y b2 (F.fin sq)))
        (fadd (Building.y b1 (F.fin eq)) (Building.y b2 (F.fin eq)))) = true := by
  rcases sum_y_shape h1 h2 q with hq | ⟨r, hq⟩
  · rw [hq]
    exact fle_ninf (fmax_ne_nan2 (sum_y_ne_nan h1 h2 eq))
  · obtain ⟨m1, bq1, m2, bq2, hm1, hb1, hm2, hb2, hr⟩ := sum_y_fin_line h1 h2 hq
    rw [hq, y_fin m1 bq1 sq hm1 hb1, y_fin m2 bq2 sq hm2 hb2,
      y_fin m1 bq1 eq hm1 hb1, y_fin m2 bq2 eq hm2 hb2, fadd_fin, fadd_fin,
      fmax_fin, fle_fin]
    rw [hr]
    rcases le_or_lt 0 (m1 + m2) with hk | hk
    · refine decide_eq_true (le_max_of_le_right ?_)
      nlinarith
    · refine decide_eq_true (le_max_of_le_left ?_)
      nlinarith

/-- The left-limit bound: if the pointwise sum of two pieces is bounded by
`u` strictly to the right of `sq` (up to `m`, which lies strictly beyond
`sq`), it is also bounded by `u` at `sq` itself.  This is how `overlap`'s
sample at `start` stays below any pointwise upper bound even when `start` is
an end of one of the skylines, where the skyline's own value has already
switched to the next piece. -/
theorem start_sample_le {b1 b2 : Building} (h1 : wfB b1 = true)
    (h2 : wfB b2 = true) {sq : ℚ} {m u : F} (hu : u ≠ F.nan)
    (hmshape : m = F.pinf ∨ ∃ mv, m = F.fin mv)
    (hm : flt (F.fin sq) m = true)
    (hU : ∀ q : ℚ, sq < q → flt (F.fin q) m = true →
      fle (fadd (Building.y b1 (F.fin q)) (Building.y b2 (F.fin q))) u = true) :
    fle (fadd (Building.y b1 (F.fin sq)) (Building.y b2 (F.fin sq))) u = true := by
  rcases sum_y_shape h1 h2 sq with hs | ⟨r, hs⟩
  · rw [hs]
    exact fle_ninf hu
  · obtain ⟨m1, bq1, m2, bq2, hm1, hb1, hm2, hb2, hr⟩ := sum_y_fin_line h1 h2 hs
    have hline : ∀ q : ℚ,
        fadd (Building.y b1 (F.fin q)) (Building.y b2 (F.fin q)) =
          F.fin ((m1 + m2) * q + (bq1 + bq2)) := by
      intro q
      rw [y_fin m1 bq1 q hm1 hb1, y_fin m2 bq2 q hm2 hb2, fadd_fin]
      ring_nf
    -- a concrete interval `(sq, mq)` inside the domain of validity
    obtain ⟨mq, hmq1, hmq2⟩ : ∃ mq : ℚ, sq < mq ∧
        ∀ q : ℚ, sq < q → q < mq → flt (F.fin q) m = true := by
      rcases hmshape with hp | ⟨mv, hv⟩
      · exact ⟨sq + 1, by linarith, fun q _ _ => by rw [hp]; rfl⟩
      · rw [hv, flt_fin] at hm
        have hm2 : sq < mv := of_decide_eq_true hm
        exact ⟨mv, hm2, fun q _ hq2 => by
          rw [hv, flt_fin]; exact decide_eq_true hq2⟩
    cases u with
    | nan => exact absurd rfl hu
    | pinf =>
        rw [hs]
        rfl
    | ninf =>
        exfalso
        have hq0 := hU ((sq + mq) / 2) (by linarith) (hmq2 _ (by linarith) (by linarith))
        rw [hline] at hq0
        cases hq0
    | fin uq =>
        rw [hs, fle_fin]
        refine decide_eq_true ?_
        have hbound : (m1 + m2) * sq + (bq1 + bq2) ≤ uq := by
          refine line_left_limit_le hmq1 ?_
          intro q hq1 hq2
          have h3 := hU q hq1 (hmq2 q hq1 hq2)
          rw [hline, fle_fin] at h3
          exact of_decide_eq_true h3
        rw [hr]
        linarith


/-! ### The `overlap` sweep invariant -/

theorem ol_step {A B : List Building} {i j : Nat} (h1 : i < A.length)
    (h2 : j < B.length) (start dist : F) :
    Skyline.overlapLoop A B i j start dist =
      if flt (A.get ⟨i, h1⟩).end_ (B.get ⟨j, h2⟩).end_ then
        Skyline.overlapLoop A B (i + 1) j (A.get ⟨i, h1⟩).end_
          (fmax (fmax dist (fadd ((A.get ⟨i, h1⟩).y start) ((B.get ⟨j, h2⟩).y start)))
            (fadd ((A.get ⟨i, h1⟩).y (A.get ⟨i, h1⟩).end_)
              ((B.get ⟨j, h2⟩).y (A.get ⟨i, h1⟩).end_)))
      else
        Skyline.overlapLoop A B i (j + 1) (B.get ⟨j, h2⟩).end_
          (fmax (fmax dist (fadd ((A.get ⟨i, h1⟩).y start) ((B.get ⟨j, h2⟩).y start)))
            (fadd ((A.get ⟨i, h1⟩).y (B.get ⟨j, h2⟩).end_)
              ((B.get ⟨j, h2⟩).y (B.get ⟨j, h2⟩).end_))) := by
  rw [Skyline.overlapLoop]
  rw [dif_pos (And.intro h1 h2)]

theorem ol_exit {A B : List Building} {i j : Nat}
    (h : ¬(i < A.length ∧ j < B.length)) (start dist : F) :
    Skyline.overlapLoop A B i j start dist = dist := by
  rw [Skyline.overlapLoop]
  rw [dif_neg h]

/-- The loop invariant of the `overlap` sweep: the cursors are in range,
`start` lies strictly before both current pieces' ends and at or after every
previous end, `dist` is an upper bound for the pointwise sum on
`(-∞, start]`, and `dist` never exceeds any NaN-free upper bound of all
pointwise sums. -/
structure OInv (A B : List Building) (i j : Nat) (start dist : F) : Prop where
  hi : i < A.length
  hj : j < B.length
  snan : start ≠ F.nan
  spinf : start ≠ F.pinf
  hs1 : flt start (A.get ⟨i, hi⟩).end_ = true
  hs2 : flt start (B.get ⟨j, hj⟩).end_ = true
  prev1 : ∀ k (hk : k < A.length), k < i → fle (A.get ⟨k, hk⟩).end_ start = true
  prev2 : ∀ k (hk : k < B.length), k < j → fle (B.get ⟨k, hk⟩).end_ start = true
  dnan : dist ≠ F.nan
  ub : ∀ q : ℚ, fle (F.fin q) start = true →
      fle (fadd (evalSky A (F.fin q)) (evalSky B (F.fin q))) dist = true
  lub : ∀ u : F, u ≠ F.nan →
      (∀ q : ℚ, fle (fadd (evalSky A (F.fin q)) (evalSky B (F.fin q))) u = true) →
      fle dist u = true

theorem eval_decompose {bs : List Building} {i : Nat} (hi : i < bs.length)
    {x start : F}
    (hprev : ∀ k (hk : k < bs.length), k < i → fle (bs.get ⟨k, hk⟩).end_ start = true)
    (hx1 : flt start x = true) (hx2 : fle x (bs.get ⟨i, hi⟩).end_ = true) :
    evalSky bs x = (bs.get ⟨i, hi⟩).y x := by
  unfold evalSky
  rw [pieceAt_eq_get hi (fun k hk => hprev k (by omega) hk) hx1 hx2]

/-- If every earlier end is `≤ -∞`, there is no earlier end (well-formed ends
are never `-∞`). -/
theorem start_ninf_zero {bs : List Building} (hall : bs.all wfB = true) {i : Nat}
    (hprev : ∀ k (hk : k < bs.length), k < i → fle (bs.get ⟨k, hk⟩).end_ F.ninf = true)
    (hi : i < bs.length) : i = 0 := by
  by_contra h0
  have h1 : 0 < i := Nat.pos_of_ne_zero h0
  have h2 := hprev 0 (by omega) h1
  obtain ⟨hnan, hninf⟩ := wfB_end (all_wfB_get hall 0 (by omega))
  exact hninf (fle_ninf_right h2)

theorem not_last_of_end_ne_pinf {bs : List Building} (hl : lastEndInf bs = true)
    {i : Nat} (hi : i < bs.length)
    (hne : (bs.get ⟨i, hi⟩).end_ ≠ F.pinf) : i + 1 < bs.length := by
  by_contra h0
  have h1 : i = bs.length - 1 := by omega
  have hne2 : bs ≠ [] := by intro h; rw [h] at hi; simp at hi
  have h2 : bs.get ⟨i, hi⟩ = bs.getLast hne2 := by
    have h3 : (⟨i, hi⟩ : Fin bs.length) = ⟨bs.length - 1, by omega⟩ :=
      Fin.ext (by simpa using h1)
    rw [h3, List.get_length_sub_one]
  rw [h2] at hne
  exact hne (lastEndInf_getLast hl hne2)

theorem end_fin_of_ne_pinf {p : Building} (h : wfB p = true)
    (hne : p.end_ ≠ F.pinf) : ∃ q, p.end_ = F.fin q := by
  obtain ⟨hnan, hninf⟩ := wfB_end h
  cases he : p.end_ with
  | fin q => exact ⟨q, rfl⟩
  | nan => exact absurd he hnan
  | ninf => exact absurd he hninf
  | pinf => exact absurd he hne

theorem get_last_index {bs : List Building} {i : Nat} (hi : i < bs.length)
    (h : i + 1 = bs.length) (hne : bs ≠ []) :
    bs.get ⟨i, hi⟩ = bs.getLast hne := by
  have h3 : (⟨i, hi⟩ : Fin bs.length) = ⟨bs.length - 1, by omega⟩ :=
    Fin.ext (by simp; omega)
  rw [h3, List.get_length_sub_one]


theorem fmin_shape {a b : F} (ha : a = F.pinf ∨ ∃ v, a = F.fin v)
    (hb : b = F.pinf ∨ ∃ v, b = F.fin v) :
    fmin a b = F.pinf ∨ ∃ v, fmin a b = F.fin v := by
  rcases ha with ha | ⟨v1, ha⟩ <;> rcases hb with hb | ⟨v2, hb⟩ <;> subst ha <;> subst hb
  · left; rfl
  · right; exact ⟨v2, rfl⟩
  · right; exact ⟨v1, rfl⟩
  · right; exact ⟨min v1 v2, fmin_fin v1 v2⟩

theorem fin_or_pinf {x : F} (h1 : x ≠ F.nan) (h2 : x ≠ F.ninf) :
    x = F.pinf ∨ ∃ v, x = F.fin v := by
  cases x with
  | pinf => exact Or.inl rfl
  | fin v => exact Or.inr ⟨v, rfl⟩
  | nan => exact absurd rfl h1
  | ninf => exact absurd rfl h2

theorem bool_eq_false {b : Bool} (h : ¬ b = true) : b = false := by
  cases b
  · rfl
  · exact absurd rfl h

/-- The master invariant argument for the `overlap` sweep: starting from a
state satisfying `OInv`, the loop returns a least upper bound of the
pointwise sums of the two (well-formed, empty-edged, end-disjoint)
skylines. -/
theorem overlapLoop_post {A B : List Building}
    (hwA : wfSky A = true) (hwB : wfSky B = true)
    (heA : edgesEmpty A = true) (heB : edgesEmpty B = true)
    (hdis : endsDisjoint A B = true) :
    ∀ n i j start dist, (A.length - i) + (B.length - j) ≤ n →
      OInv A B i j start dist →
      (∀ q : ℚ, fle (fadd (evalSky A (F.fin q)) (evalSky B (F.fin q)))
          (Skyline.overlapLoop A B i j start dist) = true) ∧
      (∀ u : F, u ≠ F.nan →
        (∀ q : ℚ, fle (fadd (evalSky A (F.fin q)) (evalSky B (F.fin q))) u = true) →
        fle (Skyline.overlapLoop A B i j start dist) u = true) ∧
      Skyline.overlapLoop A B i j start dist ≠ F.nan := by
  obtain ⟨hAne, hallA, hseA, hlastA⟩ := wfSky_parts hwA
  obtain ⟨hBne, hallB, hseB, hlastB⟩ := wfSky_parts hwB
  intro n
  induction n with
  | zero =>
      intro i j start dist hn inv
      exact absurd hn (by have := inv.hi; have := inv.hj; omega)
  | succ n ih =>
      intro i j start dist hn inv
      have hi := inv.hi
      have hj := inv.hj
      have hw1 : wfB (A.get ⟨i, hi⟩) = true := all_wfB_get hallA i hi
      have hw2 : wfB (B.get ⟨j, hj⟩) = true := all_wfB_get hallB j hj
      obtain ⟨he1nan, he1ninf⟩ := wfB_end hw1
      obtain ⟨he2nan, he2ninf⟩ := wfB_end hw2
      have hss : start = F.ninf ∨ ∃ sq, start = F.fin sq := by
        cases start with
        | ninf => exact Or.inl rfl
        | fin sq => exact Or.inr ⟨sq, rfl⟩
        | nan => exact absurd rfl inv.snan
        | pinf => exact absurd rfl inv.spinf
      have hstart0 : start = F.ninf →
          (A.get ⟨i, hi⟩).b = F.ninf ∧ (B.get ⟨j, hj⟩).b = F.ninf := by
        intro h0
        have hi0 : i = 0 := start_ninf_zero hallA (h0 ▸ inv.prev1) hi
        have hj0 : j = 0 := start_ninf_zero hallB (h0 ▸ inv.prev2) hj
        constructor
        · have h4 : (⟨i, hi⟩ : Fin A.length) = ⟨0, by omega⟩ :=
            Fin.ext (by simpa using hi0)
          rw [h4]
          exact edgesEmpty_head heA (by omega)
        · have h4 : (⟨j, hj⟩ : Fin B.length) = ⟨0, by omega⟩ :=
            Fin.ext (by simpa using hj0)
          rw [h4]
          exact edgesEmpty_head heB (by omega)
      have hdecomp : ∀ q : ℚ, flt start (F.fin q) = true →
          fle (F.fin q) (A.get ⟨i, hi⟩).end_ = true →
          fle (F.fin q) (B.get ⟨j, hj⟩).end_ = true →
          fadd (evalSky A (F.fin q)) (evalSky B (F.fin q)) =
            fadd ((A.get ⟨i, hi⟩).y (F.fin q)) ((B.get ⟨j, hj⟩).y (F.fin q)) := by
        intro q hq1 hq2 hq3
        rw [eval_decompose hi inv.prev1 hq1 hq2, eval_decompose hj inv.prev2 hq1 hq3]
      have hstartle : ∀ u : F, u ≠ F.nan →
          (∀ q : ℚ, fle (fadd (evalSky A (F.fin q)) (evalSky B (F.fin q))) u = true) →
          fle (fadd ((A.get ⟨i, hi⟩).y start) ((B.get ⟨j, hj⟩).y start)) u = true := by
        intro u hu hU
        rcases hss with h0 | ⟨sq, hstq⟩
        · obtain ⟨hb1, hb2⟩ := hstart0 h0
          rw [y_of_ninf_intercept hb1, y_of_ninf_intercept hb2]
          exact fle_ninf hu
        · rw [hstq]
          have hm : flt (F.fin sq)
              (fmin (A.get ⟨i, hi⟩).end_ (B.get ⟨j, hj⟩).end_) = true := by
            rw [← hstq]
            exact flt_fle_fmin inv.hs1 inv.hs2
          refine start_sample_le hw1 hw2 hu
            (fmin_shape (fin_or_pinf he1nan he1ninf) (fin_or_pinf he2nan he2ninf))
            hm ?_
          intro q hq1 hq2
          have hq3 : flt start (F.fin q) = true := by
            rw [hstq, flt_fin]
            exact decide_eq_true hq1
          have hq4 : fle (F.fin q) (A.get ⟨i, hi⟩).end_ = true :=
            fle_trans (fle_of_flt hq2) (fmin_le_left he1nan he2nan)
          have hq5 : fle (F.fin q) (B.get ⟨j, hj⟩).end_ = true :=
            fle_trans (fle_of_flt hq2) (fmin_le_right he1nan he2nan)
          rw [← hdecomp q hq3 hq4 hq5]
          exact hU q
      have hfin_imp : ∀ q r : ℚ,
          fadd ((A.get ⟨i, hi⟩).y (F.fin q)) ((B.get ⟨j, hj⟩).y (F.fin q)) = F.fin r →
          ∃ sq, start = F.fin sq := by
        intro q r hsum
        rcases hss with h0 | h1
        · exfalso
          obtain ⟨hb1, _⟩ := hstart0 h0
          rw [y_of_ninf_intercept hb1] at hsum
          rcases y_fin_shape hw2 q with hb | ⟨r2, hb⟩ <;> rw [hb] at hsum <;> cases hsum
        · exact h1
      by_cases hbr : flt (A.get ⟨i, hi⟩).end_ (B.get ⟨j, hj⟩).end_ = true
      · -- the `b1.end < b2.end` branch: chop at `b1.end`, advance `i`
        rw [ol_step hi hj start dist, if_pos hbr]
        have he1p : (A.get ⟨i, hi⟩).end_ ≠ F.pinf := flt_left_ne_pinf hbr
        obtain ⟨e1q, he1⟩ := end_fin_of_ne_pinf hw1 he1p
        have hi1 : i + 1 < A.length := not_last_of_end_ne_pinf hlastA hi he1p
        set s1 := fadd ((A.get ⟨i, hi⟩).y start) ((B.get ⟨j, hj⟩).y start) with hs1def
        set s2 := fadd ((A.get ⟨i, hi⟩).y (A.get ⟨i, hi⟩).end_)
          ((B.get ⟨j, hj⟩).y (A.get ⟨i, hi⟩).end_) with hs2def
        set d2 := fmax (fmax dist s1) s2 with hd2def
        have hd2n : d2 ≠ F.nan := fmax_ne_nan (fmax_ne_nan inv.dnan)
        have hdd2 : fle dist d2 = true :=
          fle_trans (fle_fmax_left inv.dnan) (fle_fmax_left (fmax_ne_nan inv.dnan))
        have hs2n : s2 ≠ F.nan := by
          rw [hs2def, he1]
          exact sum_y_ne_nan hw1 hw2 e1q
        have hs2d2 : fle s2 d2 = true := fle_fmax_right (fmax_ne_nan inv.dnan) hs2n
        have hs1d2 : s1 ≠ F.nan → fle s1 d2 = true := fun h =>
          fle_trans (fle_fmax_right inv.dnan h) (fle_fmax_left (fmax_ne_nan inv.dnan))
        have inv2 : OInv A B (i + 1) j (A.get ⟨i, hi⟩).end_ d2 := by
          refine ⟨hi1, hj, he1nan, he1p, strictEnds_get_succ hseA i hi1, hbr,
            ?_, ?_, hd2n, ?_, ?_⟩
          · intro k hk hki
            rcases Nat.lt_succ_iff_lt_or_eq.1 hki with h | h
            · exact fle_trans (inv.prev1 k hk h) (fle_of_flt inv.hs1)
            · have h4 : (⟨k, hk⟩ : Fin A.length) = ⟨i, hi⟩ := Fin.ext (by simpa using h)
              rw [h4]
              exact fle_refl he1nan
          · intro k hk hkj
            exact fle_trans (inv.prev2 k hk hkj) (fle_of_flt inv.hs1)
          · intro q hq
            by_cases hqs : fle (F.fin q) start = true
            · exact fle_trans (inv.ub q hqs) hdd2
            · have hq1 : flt start (F.fin q) = true :=
                (fle_false_iff_flt (fun hc => by cases hc) inv.snan).1 (bool_eq_false hqs)
              have hq3 : fle (F.fin q) (B.get ⟨j, hj⟩).end_ = true :=
                fle_trans hq (fle_of_flt hbr)
              rw [hdecomp q hq1 hq hq3]
              rcases sum_y_shape hw1 hw2 q with hsum | ⟨r, hsum⟩
              · rw [hsum]
                exact fle_ninf hd2n
              · obtain ⟨sq, hstq⟩ := hfin_imp q r hsum
                have ha1 : sq ≤ q := by
                  rw [hstq, flt_fin] at hq1
                  exact le_of_lt (of_decide_eq_true hq1)
                have ha2 : q ≤ e1q := by
                  rw [he1, fle_fin] at hq
                  exact of_decide_eq_true hq
                have hcv := sum_convex hw1 hw2 ha1 ha2
                rw [← hstq, ← he1] at hcv
                exact fle_trans hcv (fmax_le (hs1d2 (by
                  rw [hs1def, hstq]; exact sum_y_ne_nan hw1 hw2 sq)) hs2d2)
          · intro u hu hU
            refine fmax_le_of_le_of_imp (fmax_le_of_le_of_imp (inv.lub u hu hU) ?_) ?_
            · intro h
              exact hstartle u hu hU
            · intro h
              have hq3 : flt start (F.fin e1q) = true := he1 ▸ inv.hs1
              have hq4 : fle (F.fin e1q) (A.get ⟨i, hi⟩).end_ = true := by
                rw [he1]
                exact fle_refl (by intro hc; cases hc)
              have hq5 : fle (F.fin e1q) (B.get ⟨j, hj⟩).end_ = true :=
                he1 ▸ fle_of_flt hbr
              rw [hs2def, he1, ← hdecomp e1q hq3 hq4 hq5]
              exact hU e1q
        exact ih (i + 1) j (A.get ⟨i, hi⟩).end_ d2 (by omega) inv2
      · -- the `b1.end >= b2.end` branch: chop at `b2.end`, advance `j`
        rw [ol_step hi hj start dist, if_neg hbr]
        have hle21 : fle (B.get ⟨j, hj⟩).end_ (A.get ⟨i, hi⟩).end_ = true :=
          (flt_false_iff_fle he1nan he2nan).1 (bool_eq_false hbr)
        set s1 := fadd ((A.get ⟨i, hi⟩).y start) ((B.get ⟨j, hj⟩).y start) with hs1def
        set s2 := fadd ((A.get ⟨i, hi⟩).y (B.get ⟨j, hj⟩).end_)
          ((B.get ⟨j, hj⟩).y (B.get ⟨j, hj⟩).end_) with hs2def
        set d2 := fmax (fmax dist s1) s2 with hd2def
        have hd2n : d2 ≠ F.nan := fmax_ne_nan (fmax_ne_nan inv.dnan)
        have hdd2 : fle dist d2 = true :=
          fle_trans (fle_fmax_left inv.dnan) (fle_fmax_left (fmax_ne_nan inv.dnan))
        have hs1d2 : s1 ≠ F.nan → fle s1 d2 = true := fun h =>
          fle_trans (fle_fmax_right inv.dnan h) (fle_fmax_left (fmax_ne_nan inv.dnan))
        by_cases he2p : (B.get ⟨j, hj⟩).end_ = F.pinf
        · -- the final iteration: both current pieces are the last ones
          have he1p : (A.get ⟨i, hi⟩).end_ = F.pinf :=
            fle_pinf_left (he2p ▸ hle21)
          have hil : i = A.length - 1 := end_pinf_only_last hseA hi he1p
          have hjl : j = B.length - 1 := end_pinf_only_last hseB hj he2p
          have hb1 : (A.get ⟨i, hi⟩).b = F.ninf := by
            rw [get_last_index hi (by omega) hAne]
            exact edgesEmpty_last heA hAne
          have hb2 : (B.get ⟨j, hj⟩).b = F.ninf := by
            rw [get_last_index hj (by omega) hBne]
            exact edgesEmpty_last heB hBne
          rw [ol_exit (by intro hc; omega) (B.get ⟨j, hj⟩).end_ d2]
          refine ⟨?_, ?_, hd2n⟩
          · intro q
            by_cases hqs : fle (F.fin q) start = true
            · exact fle_trans (inv.ub q hqs) hdd2
            · have hq1 : flt start (F.fin q) = true :=
                (fle_false_iff_flt (fun hc => by cases hc) inv.snan).1 (bool_eq_false hqs)
              have hq2 : fle (F.fin q) (A.get ⟨i, hi⟩).end_ = true := by
                rw [he1p]
                rfl
              have hq3 : fle (F.fin q) (B.get ⟨j, hj⟩).end_ = true := by
                rw [he2p]
                rfl
              rw [hdecomp q hq1 hq2 hq3, y_of_ninf_intercept hb1]
              rcases y_fin_shape hw2 q with hb | ⟨r2, hb⟩ <;> rw [hb]
              · exact fle_ninf hd2n
              · exact fle_ninf hd2n
          · intro u hu hU
            refine fmax_le_of_le_of_imp (fmax_le_of_le_of_imp (inv.lub u hu hU) ?_) ?_
            · intro h
              exact hstartle u hu hU
            · intro h
              rw [hs2def, y_of_ninf_intercept hb1, y_of_ninf_intercept hb2]
              exact fle_ninf hu
        · -- `b2.end` is finite: advance `j` and keep sweeping
          obtain ⟨e2q, he2⟩ := end_fin_of_ne_pinf hw2 he2p
          have hj1 : j + 1 < B.length := not_last_of_end_ne_pinf hlastB hj he2p
          have hne12 : (A.get ⟨i, hi⟩).end_ ≠ (B.get ⟨j, hj⟩).end_ := by
            intro he
            have h5 := endsDisjoint_spec hdis (List.get_mem A i hi)
              (List.get_mem B j hj) he
            exact he2p (by rw [← he]; exact h5)
          have hlt21 : flt (B.get ⟨j, hj⟩).end_ (A.get ⟨i, hi⟩).end_ = true := by
            by_cases h : flt (B.get ⟨j, hj⟩).end_ (A.get ⟨i, hi⟩).end_ = true
            · exact h
            · exfalso
              have h3 : fle (A.get ⟨i, hi⟩).end_ (B.get ⟨j, hj⟩).end_ = true :=
                (flt_false_iff_fle he2nan he1nan).1 (bool_eq_false h)
              exact hne12 (fle_antisymm h3 hle21)
          have hs2n : s2 ≠ F.nan := by
            rw [hs2def, he2]
            exact sum_y_ne_nan hw1 hw2 e2q
          have hs2d2 : fle s2 d2 = true := fle_fmax_right (fmax_ne_nan inv.dnan) hs2n
          have inv2 : OInv A B i (j + 1) (B.get ⟨j, hj⟩).end_ d2 := by
            refine ⟨hi, hj1, he2nan, he2p, hlt21, strictEnds_get_succ hseB j hj1,
              ?_, ?_, hd2n, ?_, ?_⟩
            · intro k hk hki
              exact fle_trans (inv.prev1 k hk hki) (fle_of_flt inv.hs2)
            · intro k hk hkj
              rcases Nat.lt_succ_iff_lt_or_eq.1 hkj with h | h
              · exact fle_trans (inv.prev2 k hk h) (fle_of_flt inv.hs2)
              · have h4 : (⟨k, hk⟩ : Fin B.length) = ⟨j, hj⟩ := Fin.ext (by simpa using h)
                rw [h4]
                exact fle_refl he2nan
            · intro q hq
              by_cases hqs : fle (F.fin q) start = true
              · exact fle_trans (inv.ub q hqs) hdd2
              · have hq1 : flt start (F.fin q) = true :=
                  (fle_false_iff_flt (fun hc => by cases hc) inv.snan).1 (bool_eq_false hqs)
                have hq2 : fle (F.fin q) (A.get ⟨i, hi⟩).end_ = true :=
                  fle_trans hq hle21
                rw [hdecomp q hq1 hq2 hq]
                rcases sum_y_shape hw1 hw2 q with hsum | ⟨r, hsum⟩
                · rw [hsum]
                  exact fle_ninf hd2n
                · obtain ⟨sq, hstq⟩ := hfin_imp q r hsum
                  have ha1 : sq ≤ q := by
                    rw [hstq, flt_fin] at hq1
                    exact le_of_lt (of_decide_eq_true hq1)
                  have ha2 : q ≤ e2q := by
                    rw [he2, fle_fin] at hq
                    exact of_decide_eq_true hq
                  have hcv := sum_convex hw1 hw2 ha1 ha2
                  rw [← hstq, ← he2] at hcv
                  exact fle_trans hcv (fmax_le (hs1d2 (by
                    rw [hs1def, hstq]; exact sum_y_ne_nan hw1 hw2 sq)) hs2d2)
            · intro u hu hU
              refine fmax_le_of_le_of_imp (fmax_le_of_le_of_imp (inv.lub u hu hU) ?_) ?_
              · intro h
                exact hstartle u hu hU
              · intro h
                have hq3 : flt start (F.fin e2q) = true := he2 ▸ inv.hs2
                have hq4 : fle (F.fin e2q) (A.get ⟨i, hi⟩).end_ = true :=
                  he2 ▸ hle21
                have hq5 : fle (F.fin e2q) (B.get ⟨j, hj⟩).end_ = true := by
                  rw [he2]
                  exact fle_refl (by intro hc; cases hc)
                rw [hs2def, he2, ← hdecomp e2q hq3 hq4 hq5]
                exact hU e2q
          exact ih i (j + 1) (B.get ⟨j, hj⟩).end_ d2 (by omega) inv2


/-- The state entering the `overlap` loop satisfies the sweep invariant. -/
theorem oinv_init {A B : List Building}
    (hwA : wfSky A = true) (hwB : wfSky B = true) :
    OInv A B 0 0 F.ninf F.ninf := by
  obtain ⟨hAne, hallA, hseA, hlastA⟩ := wfSky_parts hwA
  obtain ⟨hBne, hallB, hseB, hlastB⟩ := wfSky_parts hwB
  have hi : 0 < A.length := List.length_pos.2 hAne
  have hj : 0 < B.length := List.length_pos.2 hBne
  obtain ⟨h1nan, h1ninf⟩ := wfB_end (all_wfB_get hallA 0 hi)
  obtain ⟨h2nan, h2ninf⟩ := wfB_end (all_wfB_get hallB 0 hj)
  have hflt : ∀ x : F, x ≠ F.nan → x ≠ F.ninf → flt F.ninf x = true := by
    intro x hx1 hx2
    cases x with
    | pinf => rfl
    | fin v => rfl
    | nan => exact absurd rfl hx1
    | ninf => exact absurd rfl hx2
  refine ⟨hi, hj, (by intro hc; cases hc), (by intro hc; cases hc),
    hflt _ h1nan h1ninf, hflt _ h2nan h2ninf,
    (by intro k hk hki; omega), (by intro k hk hkj; omega),
    (by intro hc; cases hc), ?_, ?_⟩
  · intro q hq
    exact Bool.noConfusion hq
  · intro u hu hU
    exact fle_ninf hu

/-- Concrete skylines used to instantiate the amended C2. -/
def c2A : List Building :=
  [{ m := F.fin 0, b := F.ninf, end_ := F.fin 0 },
   { m := F.fin 0, b := F.fin 1, end_ := F.fin 1 },
   { m := F.fin 0, b := F.ninf, end_ := F.pinf }]

def c2B : List Building :=
  [{ m := F.fin 0, b := F.ninf, end_ := F.fin 2 },
   { m := F.fin 0, b := F.fin 4, end_ := F.fin 3 },
   { m := F.fin 0, b := F.ninf, end_ := F.pinf }]

/-- C2 (amended): for well-formed skylines whose first and last pieces are
empty and which share no finite end value, `overlap` returns the least upper
bound (in the NaN-free order on extended values) of the pointwise sums
`A(x) + B(x)` over all finite `x`: every pointwise sum is at most the result,
and the result is at most any NaN-free bound of all pointwise sums.  In
particular `overlap(empty(), empty()) = -∞`.  (The original claim's "maximum
over all real x" fails in general: the counterexample shows two well-formed
one-piece skylines with unbounded sum where `overlap` returns `-∞`, because
the samples at `±∞` are NaN and `f64::max` drops them.) -/
theorem c2_overlap_lub (A B : List Building)
    (hwA : wfSky A = true) (hwB : wfSky B = true)
    (heA : edgesEmpty A = true) (heB : edgesEmpty B = true)
    (hdis : endsDisjoint A B = true) :
    (∀ q : ℚ, fle (fadd (evalSky A (F.fin q)) (evalSky B (F.fin q)))
        (Skyline.overlap A B) = true) ∧
    (∀ u : F, u ≠ F.nan →
      (∀ q : ℚ, fle (fadd (evalSky A (F.fin q)) (evalSky B (F.fin q))) u = true) →
      fle (Skyline.overlap A B) u = true) ∧
    Skyline.overlap Skyline.empty Skyline.empty = F.ninf := by
  obtain ⟨h1, h2, h3⟩ := overlapLoop_post hwA hwB heA heB hdis
    (A.length + B.length) 0 0 F.ninf F.ninf (by omega) (oinv_init hwA hwB)
  refine ⟨h1, h2, ?_⟩
  rw [Skyline.overlap]
  rw [ol_step (by simp [Skyline.empty]) (by simp [Skyline.empty]) F.ninf F.ninf]
  norm_num [Skyline.empty, Building.empty, flt, Building.y, fisInfinite, fadd, fmax, fisNaN]
  rw [ol_exit (by simp [Skyline.empty]) F.pinf F.ninf]


theorem c2_witness :
    wfSky c2A = true ∧ wfSky c2B = true ∧ edgesEmpty c2A = true ∧
    edgesEmpty c2B = true ∧ endsDisjoint c2A c2B = true ∧
    ((∀ q : ℚ, fle (fadd (evalSky c2A (F.fin q)) (evalSky c2B (F.fin q)))
        (Skyline.overlap c2A c2B) = true) ∧
     (∀ u : F, u ≠ F.nan →
       (∀ q : ℚ, fle (fadd (evalSky c2A (F.fin q)) (evalSky c2B (F.fin q))) u = true) →
       fle (Skyline.overlap c2A c2B) u = true) ∧
     Skyline.overlap Skyline.empty Skyline.empty = F.ninf) := by
  have hw1 : wfSky c2A = true := by
    norm_num [c2A, wfSky, wfB, strictEnds, lastEndInf, fIsFin, wfIntercept,
      wfEnd, flt, List.all]
  have hw2 : wfSky c2B = true := by
    norm_num [c2B, wfSky, wfB, strictEnds, lastEndInf, fIsFin, wfIntercept,
      wfEnd, flt, List.all]
  have he1 : edgesEmpty c2A = true := by
    norm_num [c2A, edgesEmpty, fIsNinf, List.getLastD]
  have he2 : edgesEmpty c2B = true := by
    norm_num [c2B, edgesEmpty, fIsNinf, List.getLastD]
  have hd : endsDisjoint c2A c2B = true := by
    norm_num [c2A, c2B, endsDisjoint, List.all]
  exact ⟨hw1, hw2, he1, he2, hd, c2_overlap_lub c2A c2B hw1 hw2 he1 he2 hd⟩
